import Mathlib

/-!
# CryptoApp: the four ciphers of `_FOR_Crypt/main.cpp`

A shallow embedding of the cipher classes of `main.cpp` (`CaesarCipher`,
`TrithemiusCipher`, `VigenereCipher`, `GammaCipher`), of the `Encryptor` that
dispatches to them and of the selection switch of `main`, and the properties
proved about them.

Modelling conventions.

* `wchar_t` is the 16-bit unsigned code unit of the Windows toolchain the
  program is written for (`<windows.h>`): `WChar := Fin 65536`.  A `wstring`
  is the list of its code units.
* `size_t` is 64 bits wide; a `size_t` value is a `Nat` reduced `% 2 ^ 64`
  wherever the source computes in `size_t`.  `int` is 32 bits wide; the
  conversion `size_t → int` is `toInt`, the conversion `int → size_t` is
  `toSizeT`.
* An operation whose behaviour C++ leaves undefined (remainder by zero, a
  string subscript beyond `size()`, a call through a null pointer) returns
  `Except.error` with the corresponding `Fault`; everything else returns
  `Except.ok`.
* The alphabet literal is read as UTF-8, one code unit per symbol.
* Where a property concerns only how many symbols a loop appends, the
  out-of-bounds subscript of `VigenereCipher::process` is also modelled as an
  unchecked build executes it (`charAtUnchecked`): the read yields one code
  unit, taken from an arbitrary `memory`.
* A loop `for (i = 0; i < text.size(); ++i)` that emits one output symbol per
  text symbol is `forEachIndex body 0 text`: it walks the text from the left,
  carries the position `i`, and stops at the first fault.  The position is a
  natural number: the counters of the source (`size_t i`, `size_t keyIndex`,
  and `int i` in `TrithemiusCipher::shift`) never wrap while they stay below
  the length of a text that fits their type.
-/

namespace CryptoApp

/-- The undefined operations the cipher code can reach. -/
inductive Fault where
  | divisionByZero
  | outOfBounds
  | nullDereference
  deriving DecidableEq, Repr

/-- A `wchar_t`: one 16-bit code unit. -/
abbrev WChar := Fin 65536

/-- A `wstring`: the sequence of its code units. -/
abbrev WString := List WChar

/-- The value `wstring::npos`, i.e. `(size_t)-1`. -/
def npos : Nat := 2 ^ 64 - 1

/-- Conversion of an `int` to `size_t` (reduction modulo `2 ^ 64`). -/
def toSizeT (z : Int) : Nat := (z % 2 ^ 64).toNat

/-- Conversion of a `size_t` to `int` (reduction modulo `2 ^ 32`, read as a
two's-complement value). -/
def toInt (n : Nat) : Int :=
  if n % 2 ^ 32 < 2 ^ 31 then ((n % 2 ^ 32 : Nat) : Int)
  else ((n % 2 ^ 32 : Nat) : Int) - 2 ^ 32

/-- The member `EncryptionStrategy::alphabet` (line 15):
`L"абвгдеёжзийклмнопрстуфхцчшщъыьэюя ,.!?-:\"–"`, as code units. -/
def alphabet : WString :=
  [ 1072, 1073, 1074, 1075, 1076, 1077, 1105, 1078, 1079, 1080, 1081,  -- а б в г д е ё ж з и й
    1082, 1083, 1084, 1085, 1086, 1087, 1088, 1089, 1090, 1091, 1092,  -- к л м н о п р с т у ф
    1093, 1094, 1095, 1096, 1097, 1098, 1099, 1100, 1101, 1102, 1103,  -- х ц ч ш щ ъ ы ь э ю я
    32, 44, 46, 33, 63, 45, 58, 34, 8211 ]                             -- space , . ! ? - : " –

/-- The algorithm `std::find(begin, end, ch)` as an offset from `begin`: the
index of the first occurrence of `ch`, or the length of the string (the `end`
iterator) when there is none. -/
def stdFind : WString → WChar → Nat
  | [], _ => 0
  | c :: cs, ch => if c = ch then 0 else stdFind cs ch + 1

/-- The member `wstring::find(ch)`: the index of the first occurrence of `ch`,
or `npos`. -/
def find (s : WString) (ch : WChar) : Nat :=
  if stdFind s ch < s.length then stdFind s ch else npos

/-- The subscript `s[pos]` of a `wstring`: the code unit at `pos`, the
terminating null code unit at `pos == size()`, undefined beyond. -/
def charAt (s : WString) (pos : Nat) : Except Fault WChar :=
  match s[pos]? with
  | some c => .ok c
  | none => if pos = s.length then .ok 0 else .error .outOfBounds

/-- The subscript `s[pos]` as a build without bounds checks executes it: within
the string and at `size()` it is `charAt`; beyond, the read yields the code
unit that lies at that address, `memory pos`, whatever it is. -/
def charAtUnchecked (memory : Nat → WChar) (s : WString) (pos : Nat) : WChar :=
  match charAt s pos with
  | .ok c => c
  | .error _ => memory pos

/-- The algorithm `std::rotate(first, first + middle, last)` over a whole
string: the element at offset `middle` becomes the first one. -/
def rotate (s : WString) (middle : Nat) : WString :=
  s.drop middle ++ s.take middle

/-- The loop over the positions of a text that produces one symbol per text
symbol: `body i text[i]` for `i = start, start + 1, ...`, stopping at the
first fault. -/
def forEachIndex (body : Nat → WChar → Except Fault WChar) :
    Nat → WString → Except Fault WString
  | _, [] => .ok []
  | i, ch :: rest =>
    match body i ch with
    | .error e => .error e
    | .ok r =>
      match forEachIndex body (i + 1) rest with
      | .error e => .error e
      | .ok rs => .ok (r :: rs)

/-! ## CaesarCipher (lines 23-47) -/

namespace CaesarCipher

/-- The body of the loop of `CaesarCipher::shift` (lines 38-42).  The sum
`index + shift + alphabet.size()` is computed in `size_t`. -/
def shiftChar (shift : Int) (ch : WChar) : Except Fault WChar :=
  let index := find alphabet ch
  if index ≠ npos then
    let index := ((index + toSizeT shift) % 2 ^ 64 + alphabet.length) % 2 ^ 64 % alphabet.length
    charAt alphabet index
  else
    .ok ch

/-- The method `CaesarCipher::shift` (lines 34-46). -/
def shift (text : WString) (shift : Int) : Except Fault WString :=
  forEachIndex (fun _ ch => shiftChar shift ch) 0 text

/-- The method `CaesarCipher::encrypt` (lines 25-27). -/
def encrypt (text : WString) : Except Fault WString := shift text 3

/-- The method `CaesarCipher::decrypt` (lines 29-31). -/
def decrypt (text : WString) : Except Fault WString := shift text (-3)

end CaesarCipher

/-! ## TrithemiusCipher (lines 49-89) -/

namespace TrithemiusCipher

/-- The body of the loop of `TrithemiusCipher::shift` (lines 65-84).  The
decrypting branch rotates through reverse iterators, i.e. rotates the reversed
string and reads the result backwards. -/
def shiftChar (encrypt : Bool) (i : Nat) (currentChar : WChar) : Except Fault WChar :=
  let alphabetSize := alphabet.length
  let shiftedAlphabet :=
    if encrypt then rotate alphabet (i % alphabetSize)
    else (rotate alphabet.reverse (i % alphabetSize)).reverse
  let pos := stdFind alphabet currentChar
  if pos ≠ alphabet.length then
    charAt shiftedAlphabet pos
  else
    .ok currentChar

/-- The method `TrithemiusCipher::shift` (lines 60-88). -/
def shift (text : WString) (encrypt : Bool) : Except Fault WString :=
  forEachIndex (shiftChar encrypt) 0 text

/-- The method `TrithemiusCipher::encrypt` (lines 51-53). -/
def encrypt (text : WString) : Except Fault WString := shift text true

/-- The method `TrithemiusCipher::decrypt` (lines 55-57). -/
def decrypt (text : WString) : Except Fault WString := shift text false

end TrithemiusCipher

/-! ## VigenereCipher (lines 91-135) -/

/-- The class `VigenereCipher`: its only state is the key, stored as given by
the constructor (line 96), which checks nothing. -/
structure VigenereCipher where
  key : WString
  deriving DecidableEq, Repr

namespace VigenereCipher

/-- The constructor `VigenereCipher(const wstring& key) : key(key) {}`
(line 96): it stores the key as given and has no failing path. -/
def new (key : WString) : Except Fault VigenereCipher := .ok ⟨key⟩

/-- The index computed on lines 116-128 from the text symbol and the key
symbol, in `int` arithmetic (`%` truncates towards zero). -/
def resultIndex (isEncrypt : Bool) (textChar keyChar : WChar) : Int :=
  let alphabetSize : Int := alphabet.length
  let textIndex : Int := toInt (find alphabet textChar)
  let keyIndex : Int := toInt (find alphabet keyChar)
  if isEncrypt then
    (textIndex + keyIndex + 1).tmod alphabetSize
  else
    let resultIndex := (textIndex - keyIndex - 1 + alphabetSize).tmod alphabetSize
    if resultIndex < 0 then resultIndex + alphabetSize else resultIndex

/-- The body of the loop of `VigenereCipher::process` (lines 113-130).  The
counter `keyIndex` of line 111 equals `i` in every iteration, and `i` stays
below `text.size()`, so neither wraps. -/
def processChar (self : VigenereCipher) (isEncrypt : Bool) (i : Nat) (textChar : WChar) :
    Except Fault WChar :=
  if self.key.length = 0 then
    .error .divisionByZero
  else
    match charAt self.key (i % self.key.length) with
    | .error e => .error e
    | .ok keyChar => charAt alphabet (toSizeT (resultIndex isEncrypt textChar keyChar))

/-- The method `VigenereCipher::process` (lines 107-134). -/
def process (self : VigenereCipher) (text : WString) (isEncrypt : Bool) :
    Except Fault WString :=
  forEachIndex (self.processChar isEncrypt) 0 text

/-- The method `VigenereCipher::encrypt` (lines 98-100). -/
def encrypt (self : VigenereCipher) (text : WString) : Except Fault WString :=
  self.process text true

/-- The method `VigenereCipher::decrypt` (lines 102-104). -/
def decrypt (self : VigenereCipher) (text : WString) : Except Fault WString :=
  self.process text false

/-- The body of the loop of `VigenereCipher::process` (lines 113-130) with the
subscript of line 130 executed without a bounds check: `resultText +=
alphabet[resultIndex]` appends the code unit the read yields, also when
`resultIndex` is -1. -/
def processCharUnchecked (memory : Nat → WChar) (self : VigenereCipher) (isEncrypt : Bool)
    (i : Nat) (textChar : WChar) : Except Fault WChar :=
  if self.key.length = 0 then
    .error .divisionByZero
  else
    match charAt self.key (i % self.key.length) with
    | .error e => .error e
    | .ok keyChar =>
      .ok (charAtUnchecked memory alphabet (toSizeT (resultIndex isEncrypt textChar keyChar)))

/-- The method `VigenereCipher::process` (lines 107-134) with the subscript of
line 130 executed without a bounds check. -/
def processUnchecked (memory : Nat → WChar) (self : VigenereCipher) (text : WString)
    (isEncrypt : Bool) : Except Fault WString :=
  forEachIndex (self.processCharUnchecked memory isEncrypt) 0 text

/-- The method `VigenereCipher::encrypt` (lines 98-100) with the subscript of
line 130 executed without a bounds check. -/
def encryptUnchecked (memory : Nat → WChar) (self : VigenereCipher) (text : WString) :
    Except Fault WString :=
  self.processUnchecked memory text true

/-- The method `VigenereCipher::decrypt` (lines 102-104) with the subscript of
line 130 executed without a bounds check. -/
def decryptUnchecked (memory : Nat → WChar) (self : VigenereCipher) (text : WString) :
    Except Fault WString :=
  self.processUnchecked memory text false

end VigenereCipher

/-! ## GammaCipher (lines 137-160) -/

/-- The class `GammaCipher`: its only state is the key, stored as given by the
constructor (line 142), which checks nothing. -/
structure GammaCipher where
  key : WString
  deriving DecidableEq, Repr

namespace GammaCipher

/-- The constructor `GammaCipher(const wstring& key) : key(key) {}`
(line 142): it stores the key as given and has no failing path. -/
def new (key : WString) : Except Fault GammaCipher := .ok ⟨key⟩

/-- The body of the loop of `GammaCipher::process` (line 156). -/
def processChar (self : GammaCipher) (i : Nat) (textChar : WChar) : Except Fault WChar :=
  if self.key.length = 0 then
    .error .divisionByZero
  else
    match charAt self.key (i % self.key.length) with
    | .error e => .error e
    | .ok keyChar => .ok (textChar ^^^ keyChar)

/-- The method `GammaCipher::process` (lines 153-159). -/
def process (self : GammaCipher) (text : WString) : Except Fault WString :=
  forEachIndex self.processChar 0 text

/-- The method `GammaCipher::encrypt` (lines 144-146). -/
def encrypt (self : GammaCipher) (text : WString) : Except Fault WString :=
  self.process text

/-- The method `GammaCipher::decrypt` (lines 148-150). -/
def decrypt (self : GammaCipher) (text : WString) : Except Fault WString :=
  self.process text

end GammaCipher

/-! ## Encryptor (lines 162-178) and the selection switch of `main` -/

/-- The object behind a `unique_ptr<EncryptionStrategy>`: an instance of one of
the four classes derived from `EncryptionStrategy` (lines 13-21). -/
inductive EncryptionStrategy where
  | caesar
  | trithemius
  | gamma (cipher : GammaCipher)
  | vigenere (cipher : VigenereCipher)
  deriving DecidableEq, Repr

namespace EncryptionStrategy

/-- The virtual call `strategy->encrypt(text)`: the override of the dynamic
class of the object. -/
def encrypt : EncryptionStrategy → WString → Except Fault WString
  | caesar, text => CaesarCipher.encrypt text
  | trithemius, text => TrithemiusCipher.encrypt text
  | gamma cipher, text => cipher.encrypt text
  | vigenere cipher, text => cipher.encrypt text

/-- The virtual call `strategy->decrypt(text)`. -/
def decrypt : EncryptionStrategy → WString → Except Fault WString
  | caesar, text => CaesarCipher.decrypt text
  | trithemius, text => TrithemiusCipher.decrypt text
  | gamma cipher, text => cipher.decrypt text
  | vigenere cipher, text => cipher.decrypt text

end EncryptionStrategy

/-- The class `Encryptor`: a `unique_ptr<EncryptionStrategy>`, null until
`setStrategy` is called. -/
structure Encryptor where
  strategy : Option EncryptionStrategy
  deriving DecidableEq, Repr

namespace Encryptor

/-- The default-constructed `Encryptor` of line 320: the pointer is null. -/
def new : Encryptor := ⟨none⟩

/-- The method `Encryptor::setStrategy` (lines 167-169). -/
def setStrategy (_self : Encryptor) (newStrategy : EncryptionStrategy) : Encryptor :=
  ⟨some newStrategy⟩

/-- The method `Encryptor::encrypt` (lines 171-173); calling through the null
pointer is undefined. -/
def encrypt (self : Encryptor) (text : WString) : Except Fault WString :=
  match self.strategy with
  | none => .error .nullDereference
  | some strategy => strategy.encrypt text

/-- The method `Encryptor::decrypt` (lines 175-177). -/
def decrypt (self : Encryptor) (text : WString) : Except Fault WString :=
  match self.strategy with
  | none => .error .nullDereference
  | some strategy => strategy.decrypt text

end Encryptor

/-- Lines 320-337 of `main`: the `Encryptor` left by the `switch (action)`, or
`none` when the `default` branch returns from `main`.  The two keyed classes
are constructed from the key as it is. -/
def selectEncryptor (action : Int) (key : WString) : Option Encryptor :=
  let encryptor := Encryptor.new
  if action = 1 then some (encryptor.setStrategy .caesar)
  else if action = 2 then some (encryptor.setStrategy .trithemius)
  else if action = 3 then some (encryptor.setStrategy (.gamma ⟨key⟩))
  else if action = 4 then some (encryptor.setStrategy (.vigenere ⟨key⟩))
  else none

/-- Successive applications of an operation, each to the result of the one
before: `applyTimes op n text` applies `op` to `text` `n` times and stops at
the first fault. -/
def applyTimes (op : WString → Except Fault WString) : Nat → WString → Except Fault WString
  | 0, text => .ok text
  | n + 1, text =>
    match applyTimes op n text with
    | .error e => .error e
    | .ok out => op out

/-! ## The loop -/

theorem forEachIndex_ok_iff (body : Nat → WChar → Except Fault WChar) (text : WString) :
    ∀ (i : Nat) (out : WString),
      forEachIndex body i text = .ok out ↔
        out.length = text.length ∧
          ∀ j c d, text[j]? = some c → out[j]? = some d → body (i + j) c = .ok d := by
  induction text with
  | nil =>
    intro i out
    cases out with
    | nil => simp [forEachIndex]
    | cons d ds => simp [forEachIndex]
  | cons ch rest ih =>
    intro i out
    unfold forEachIndex
    cases hb : body i ch with
    | error e =>
      simp only [false_iff, not_and, reduceCtorEq]
      intro hlen hall
      cases out with
      | nil => simp at hlen
      | cons d ds =>
        have := hall 0 ch d (by simp) (by simp)
        simp [hb] at this
    | ok r =>
      cases hr : forEachIndex body (i + 1) rest with
      | error e =>
        simp only [false_iff, not_and, reduceCtorEq]
        intro hlen hall
        cases out with
        | nil => simp at hlen
        | cons d ds =>
          have h2 : forEachIndex body (i + 1) rest = .ok ds := by
            rw [ih]
            refine ⟨by simpa using hlen, ?_⟩
            intro j c e hc he
            have := hall (j + 1) c e (by simpa using hc) (by simpa using he)
            rw [← this]
            congr 1
            omega
          rw [hr] at h2
          cases h2
      | ok rs =>
        have hrs := (ih (i + 1) rs).mp hr
        constructor
        · intro h
          cases h
          refine ⟨by simp [hrs.1], ?_⟩
          intro j c d hc hd
          cases j with
          | zero =>
            simp at hc hd
            subst hc; subst hd
            simpa using hb
          | succ j =>
            have := hrs.2 j c d (by simpa using hc) (by simpa using hd)
            rw [← this]
            congr 1
            omega
        · rintro ⟨hlen, hall⟩
          cases out with
          | nil => simp at hlen
          | cons d ds =>
            have h0 := hall 0 ch d (by simp) (by simp)
            simp [hb] at h0
            have h2 : forEachIndex body (i + 1) rest = .ok ds := by
              rw [ih]
              refine ⟨by simpa using hlen, ?_⟩
              intro j c e hc he
              have := hall (j + 1) c e (by simpa using hc) (by simpa using he)
              rw [← this]
              congr 1
              omega
            rw [hr] at h2
            cases h2
            rw [h0]

theorem forEachIndex_total (body : Nat → WChar → Except Fault WChar) (text : WString) :
    ∀ (i : Nat), (∀ j c, text[j]? = some c → ∃ d, body (i + j) c = .ok d) →
      ∃ out, forEachIndex body i text = .ok out := by
  induction text with
  | nil => intro i _; exact ⟨[], rfl⟩
  | cons ch rest ih =>
    intro i h
    obtain ⟨d, hd⟩ := h 0 ch (by simp)
    obtain ⟨ds, hds⟩ := ih (i + 1) (by
      intro j c hc
      obtain ⟨e, he⟩ := h (j + 1) c (by simpa using hc)
      refine ⟨e, ?_⟩
      rw [← he]
      congr 1
      omega)
    refine ⟨d :: ds, ?_⟩
    simp at hd
    simp [forEachIndex, hd, hds]

/-! ## Searching and subscripting -/

theorem stdFind_eq_indexOf (s : WString) (ch : WChar) : stdFind s ch = s.indexOf ch := by
  induction s with
  | nil => rfl
  | cons c cs ih =>
    by_cases h : c = ch
    · simp [stdFind, h]
    · have h2 : ¬ ch = c := fun e => h e.symm
      simp [stdFind, h, List.indexOf_cons, ih, h2]

theorem stdFind_lt_iff (s : WString) (ch : WChar) : stdFind s ch < s.length ↔ ch ∈ s := by
  rw [stdFind_eq_indexOf]
  exact List.indexOf_lt_length

theorem stdFind_of_not_mem (s : WString) (ch : WChar) (h : ch ∉ s) :
    stdFind s ch = s.length := by
  rw [stdFind_eq_indexOf]
  exact List.indexOf_eq_length.mpr h

theorem stdFind_of_get (s : WString) (hs : s.Nodup) (p : Nat) (ch : WChar)
    (h : s[p]? = some ch) : stdFind s ch = p := by
  obtain ⟨hp, rfl⟩ := List.getElem?_eq_some_iff.mp h
  rw [stdFind_eq_indexOf]
  exact List.indexOf_getElem hs p hp

theorem get_stdFind (s : WString) (ch : WChar) (h : ch ∈ s) :
    s[stdFind s ch]? = some ch := by
  have hlt := (stdFind_lt_iff s ch).mpr h
  rw [List.getElem?_eq_some_iff]
  refine ⟨hlt, ?_⟩
  simp only [stdFind_eq_indexOf]
  exact List.getElem_indexOf _

theorem find_of_get (s : WString) (hs : s.Nodup) (p : Nat) (ch : WChar)
    (h : s[p]? = some ch) : find s ch = p := by
  have hp : p < s.length := (List.getElem?_eq_some_iff.mp h).1
  simp [find, stdFind_of_get s hs p ch h, hp]

theorem find_of_not_mem (s : WString) (ch : WChar) (h : ch ∉ s) : find s ch = npos := by
  simp [find, stdFind_of_not_mem s ch h]

theorem charAt_of_get (s : WString) (p : Nat) (ch : WChar) (h : s[p]? = some ch) :
    charAt s p = .ok ch := by
  simp [charAt, h]

theorem alphabet_length : alphabet.length = 42 := rfl

theorem alphabet_nodup : alphabet.Nodup := by decide

theorem mem_alphabet_iff (ch : WChar) :
    ch ∈ alphabet ↔ ∃ p, p < 42 ∧ alphabet[p]? = some ch := by
  rw [List.mem_iff_getElem?]
  constructor
  · rintro ⟨p, hp⟩
    exact ⟨p, by simpa [alphabet_length] using (List.getElem?_eq_some_iff.mp hp).1, hp⟩
  · rintro ⟨p, _, hp⟩
    exact ⟨p, hp⟩

theorem alphabet_get_lt (p : Nat) (ch : WChar) (h : alphabet[p]? = some ch) : p < 42 := by
  simpa [alphabet_length] using (List.getElem?_eq_some_iff.mp h).1

theorem alphabet_get_mod (n : Nat) : ∃ d, alphabet[n % 42]? = some d := by
  have h : n % 42 < alphabet.length := by rw [alphabet_length]; omega
  exact ⟨alphabet[n % 42], List.getElem?_eq_getElem h⟩

theorem alphabet_get_inj (p q : Nat) (ch : WChar) (hp : alphabet[p]? = some ch)
    (hq : alphabet[q]? = some ch) : p = q := by
  rw [← stdFind_of_get alphabet alphabet_nodup p ch hp,
    ← stdFind_of_get alphabet alphabet_nodup q ch hq]

theorem toSizeT_natCast (n : Nat) (h : n < 2 ^ 64) : toSizeT (n : Int) = n := by
  unfold toSizeT
  omega

theorem toInt_of_lt (n : Nat) (h : n < 2 ^ 31) : toInt n = (n : Int) := by
  unfold toInt
  have : n % 2 ^ 32 = n := Nat.mod_eq_of_lt (by omega)
  rw [this, if_pos h]

theorem toInt_npos : toInt npos = -1 := by
  simp [toInt, npos]

theorem forEachIndex_length (body : Nat → WChar → Except Fault WChar) (text out : WString)
    (i : Nat) (h : forEachIndex body i text = .ok out) : out.length = text.length :=
  ((forEachIndex_ok_iff body text i out).mp h).1

theorem forEachIndex_get (body : Nat → WChar → Except Fault WChar) (text out : WString)
    (i : Nat) (h : forEachIndex body i text = .ok out) (j : Nat) (c : WChar)
    (hc : text[j]? = some c) : ∃ d, out[j]? = some d ∧ body (i + j) c = .ok d := by
  obtain ⟨hlen, hall⟩ := (forEachIndex_ok_iff body text i out).mp h
  have hj : j < out.length := by
    rw [hlen]
    exact (List.getElem?_eq_some_iff.mp hc).1
  exact ⟨out[j], List.getElem?_eq_getElem hj, hall j c out[j] hc (List.getElem?_eq_getElem hj)⟩

theorem forEachIndex_round_trip (f g : Nat → WChar → Except Fault WChar) (P : WChar → Prop)
    (hfg : ∀ j c, P c → ∃ d, f j c = .ok d ∧ g j d = .ok c) (text : WString) :
    ∀ (i : Nat), (∀ c ∈ text, P c) →
      ∃ out, forEachIndex f i text = .ok out ∧ forEachIndex g i out = .ok text := by
  induction text with
  | nil => intro i _; exact ⟨[], rfl, rfl⟩
  | cons ch rest ih =>
    intro i h
    obtain ⟨d, hd, hd2⟩ := hfg i ch (h ch (by simp))
    obtain ⟨ds, hds, hds2⟩ := ih (i + 1) (fun c hc => h c (by simp [hc]))
    exact ⟨d :: ds, by simp [forEachIndex, hd, hds], by simp [forEachIndex, hd2, hds2]⟩

/-! ## CaesarCipher -/

namespace CaesarCipher

theorem caesar_shiftChar_of_not_mem (s : Int) (ch : WChar) (h : ch ∉ alphabet) :
    shiftChar s ch = .ok ch := by
  simp [shiftChar, find_of_not_mem alphabet ch h]

theorem caesar_shiftChar_encrypt (p : Nat) (ch : WChar) (h : alphabet[p]? = some ch) :
    ∃ d, alphabet[(p + 3) % 42]? = some d ∧ shiftChar 3 ch = .ok d := by
  have hp := alphabet_get_lt p ch h
  obtain ⟨d, hd⟩ := alphabet_get_mod (p + 3)
  refine ⟨d, hd, ?_⟩
  have hne : p ≠ npos := by unfold npos; omega
  have h3 : toSizeT 3 = 3 := by decide
  have hidx : ((p + 3) % 2 ^ 64 + 42) % 2 ^ 64 % 42 = (p + 3) % 42 := by omega
  simp only [shiftChar, find_of_get alphabet alphabet_nodup p ch h, hne, ne_eq,
    not_false_eq_true, if_true, h3, alphabet_length, hidx]
  exact charAt_of_get alphabet _ d hd

theorem caesar_shiftChar_decrypt (p : Nat) (ch : WChar) (h : alphabet[p]? = some ch) :
    ∃ d, alphabet[(p + 39) % 42]? = some d ∧ shiftChar (-3) ch = .ok d := by
  have hp := alphabet_get_lt p ch h
  obtain ⟨d, hd⟩ := alphabet_get_mod (p + 39)
  refine ⟨d, hd, ?_⟩
  have hne : p ≠ npos := by unfold npos; omega
  have h3 : toSizeT (-3) = 2 ^ 64 - 3 := by decide
  have hidx : ((p + (2 ^ 64 - 3)) % 2 ^ 64 + 42) % 2 ^ 64 % 42 = (p + 39) % 42 := by omega
  simp only [shiftChar, find_of_get alphabet alphabet_nodup p ch h, hne, ne_eq,
    not_false_eq_true, if_true, h3, alphabet_length, hidx]
  exact charAt_of_get alphabet _ d hd

theorem caesar_shiftChar_round_trip (ch : WChar) (h : ch ∈ alphabet) :
    ∃ d, shiftChar 3 ch = .ok d ∧ shiftChar (-3) d = .ok ch := by
  obtain ⟨p, hp, hch⟩ := (mem_alphabet_iff ch).mp h
  obtain ⟨d, hd, henc⟩ := caesar_shiftChar_encrypt p ch hch
  obtain ⟨e, he, hdec⟩ := caesar_shiftChar_decrypt ((p + 3) % 42) d hd
  have hidx : ((p + 3) % 42 + 39) % 42 = p := by omega
  rw [hidx, hch] at he
  cases he
  exact ⟨d, henc, hdec⟩

end CaesarCipher

/-! ## TrithemiusCipher -/

theorem rotate_eq_rotate (s : WString) (m : Nat) (hm : m ≤ s.length) :
    rotate s m = s.rotate m := by
  rw [List.rotate_eq_drop_append_take hm]
  rfl

theorem rotate_alphabet_get (i p : Nat) (hp : p < 42) :
    (rotate alphabet (i % 42))[p]? = alphabet[(p + i) % 42]? := by
  have hm : i % 42 ≤ alphabet.length := by rw [alphabet_length]; omega
  rw [rotate_eq_rotate alphabet _ hm, List.getElem?_rotate (by rw [alphabet_length]; exact hp),
    alphabet_length]
  congr 1
  omega

theorem rotate_reverse_alphabet_get (i p : Nat) (hp : p < 42) :
    (rotate alphabet.reverse (i % 42)).reverse[p]? = alphabet[(p + 42 - i % 42) % 42]? := by
  have hm : i % 42 ≤ alphabet.reverse.length := by
    rw [List.length_reverse, alphabet_length]; omega
  rw [rotate_eq_rotate alphabet.reverse _ hm, List.rotate_reverse, List.reverse_reverse,
    List.getElem?_rotate (by rw [alphabet_length]; exact hp), alphabet_length]
  congr 1
  omega

namespace TrithemiusCipher

theorem trithemius_shiftChar_of_not_mem (encrypt : Bool) (i : Nat) (ch : WChar) (h : ch ∉ alphabet) :
    shiftChar encrypt i ch = .ok ch := by
  simp [shiftChar, stdFind_of_not_mem alphabet ch h]

theorem trithemius_shiftChar_encrypt (i p : Nat) (ch : WChar) (h : alphabet[p]? = some ch) :
    ∃ d, alphabet[(p + i) % 42]? = some d ∧ shiftChar true i ch = .ok d := by
  have hp := alphabet_get_lt p ch h
  obtain ⟨d, hd⟩ := alphabet_get_mod (p + i)
  refine ⟨d, hd, ?_⟩
  have hne : p ≠ 42 := by omega
  simp only [shiftChar, stdFind_of_get alphabet alphabet_nodup p ch h, alphabet_length, hne,
    ne_eq, not_false_eq_true, if_true]
  exact charAt_of_get _ _ d (by rw [rotate_alphabet_get i p hp]; exact hd)

theorem trithemius_shiftChar_decrypt (i p : Nat) (ch : WChar) (h : alphabet[p]? = some ch) :
    ∃ d, alphabet[(p + 42 - i % 42) % 42]? = some d ∧ shiftChar false i ch = .ok d := by
  have hp := alphabet_get_lt p ch h
  obtain ⟨d, hd⟩ := alphabet_get_mod (p + 42 - i % 42)
  refine ⟨d, hd, ?_⟩
  have hne : p ≠ 42 := by omega
  simp only [shiftChar, stdFind_of_get alphabet alphabet_nodup p ch h, alphabet_length, hne,
    ne_eq, not_false_eq_true, if_true]
  exact charAt_of_get _ _ d (by
    simp only [Bool.false_eq_true, if_false]
    rw [rotate_reverse_alphabet_get i p hp]; exact hd)

theorem trithemius_shiftChar_round_trip (i : Nat) (ch : WChar) (h : ch ∈ alphabet) :
    ∃ d, shiftChar true i ch = .ok d ∧ shiftChar false i d = .ok ch := by
  obtain ⟨p, hp, hch⟩ := (mem_alphabet_iff ch).mp h
  obtain ⟨d, hd, henc⟩ := trithemius_shiftChar_encrypt i p ch hch
  obtain ⟨e, he, hdec⟩ := trithemius_shiftChar_decrypt i ((p + i) % 42) d hd
  have hidx : ((p + i) % 42 + 42 - i % 42) % 42 = p := by omega
  rw [hidx, hch] at he
  cases he
  exact ⟨d, henc, hdec⟩

end TrithemiusCipher

/-! ## The keyed ciphers -/

theorem charAt_key (key : WString) (hkey : key ≠ []) (i : Nat) :
    ∃ kc, key[i % key.length]? = some kc ∧ kc ∈ key ∧
      charAt key (i % key.length) = .ok kc := by
  have hlen : 0 < key.length := List.length_pos.mpr hkey
  have hlt : i % key.length < key.length := Nat.mod_lt _ hlen
  exact ⟨key[i % key.length], List.getElem?_eq_getElem hlt, List.getElem_mem hlt,
    charAt_of_get _ _ _ (List.getElem?_eq_getElem hlt)⟩

theorem xor_xor_cancel (a b : WChar) : (a ^^^ b) ^^^ b = a := by
  have hlt : a.val ^^^ b.val < 65536 :=
    Nat.xor_lt_two_pow (n := 16) a.isLt b.isLt
  apply Fin.ext
  show ((a.val ^^^ b.val) % 65536 ^^^ b.val) % 65536 = a.val
  rw [Nat.mod_eq_of_lt hlt, Nat.xor_cancel_right, Nat.mod_eq_of_lt a.isLt]

namespace VigenereCipher

theorem vigenere_resultIndex_encrypt (t k : Nat) (textChar keyChar : WChar)
    (ht : alphabet[t]? = some textChar) (hk : alphabet[k]? = some keyChar) :
    resultIndex true textChar keyChar = (((t + k + 1) % 42 : Nat) : Int) := by
  have ht2 := alphabet_get_lt t textChar ht
  have hk2 := alphabet_get_lt k keyChar hk
  simp only [resultIndex, find_of_get alphabet alphabet_nodup t textChar ht,
    find_of_get alphabet alphabet_nodup k keyChar hk, toInt_of_lt t (by omega),
    toInt_of_lt k (by omega), alphabet_length, if_true]
  rw [Int.tmod_eq_emod (by omega) (by omega)]
  omega

theorem vigenere_resultIndex_decrypt (t k : Nat) (textChar keyChar : WChar)
    (ht : alphabet[t]? = some textChar) (hk : alphabet[k]? = some keyChar) :
    resultIndex false textChar keyChar = (((t + 42 - k - 1) % 42 : Nat) : Int) := by
  have ht2 := alphabet_get_lt t textChar ht
  have hk2 := alphabet_get_lt k keyChar hk
  simp only [resultIndex, find_of_get alphabet alphabet_nodup t textChar ht,
    find_of_get alphabet alphabet_nodup k keyChar hk, toInt_of_lt t (by omega),
    toInt_of_lt k (by omega), alphabet_length, Bool.false_eq_true, if_false]
  rw [Int.tmod_eq_emod (by omega) (by omega)]
  have h0 : ¬ (((t : Int) - k - 1 + ((42 : Nat) : Int)) % ((42 : Nat) : Int) < 0) := by omega
  rw [if_neg h0]
  omega

theorem vigenere_processChar_encrypt (key : WString) (i t k : Nat) (textChar keyChar : WChar)
    (hkey : key[i % key.length]? = some keyChar)
    (ht : alphabet[t]? = some textChar) (hk : alphabet[k]? = some keyChar) :
    ∃ d, alphabet[(t + k + 1) % 42]? = some d ∧
      processChar ⟨key⟩ true i textChar = .ok d := by
  obtain ⟨d, hd⟩ := alphabet_get_mod (t + k + 1)
  refine ⟨d, hd, ?_⟩
  have hne : key.length ≠ 0 := by
    intro h0
    have := (List.getElem?_eq_some_iff.mp hkey).1
    omega
  simp only [processChar, hne, if_false, charAt_of_get key _ keyChar hkey,
    vigenere_resultIndex_encrypt t k textChar keyChar ht hk]
  rw [toSizeT_natCast _ (by omega)]
  exact charAt_of_get _ _ d hd

theorem vigenere_processChar_decrypt (key : WString) (i t k : Nat) (textChar keyChar : WChar)
    (hkey : key[i % key.length]? = some keyChar)
    (ht : alphabet[t]? = some textChar) (hk : alphabet[k]? = some keyChar) :
    ∃ d, alphabet[(t + 42 - k - 1) % 42]? = some d ∧
      processChar ⟨key⟩ false i textChar = .ok d := by
  obtain ⟨d, hd⟩ := alphabet_get_mod (t + 42 - k - 1)
  refine ⟨d, hd, ?_⟩
  have hne : key.length ≠ 0 := by
    intro h0
    have := (List.getElem?_eq_some_iff.mp hkey).1
    omega
  simp only [processChar, hne, if_false, charAt_of_get key _ keyChar hkey,
    vigenere_resultIndex_decrypt t k textChar keyChar ht hk]
  rw [toSizeT_natCast _ (by omega)]
  exact charAt_of_get _ _ d hd

theorem vigenere_processChar_round_trip (key : WString) (hkey : key ≠ [])
    (hk : ∀ c ∈ key, c ∈ alphabet) (i : Nat) (ch : WChar) (h : ch ∈ alphabet) :
    ∃ d, processChar ⟨key⟩ true i ch = .ok d ∧ processChar ⟨key⟩ false i d = .ok ch := by
  obtain ⟨kc, hkc, hmem, _⟩ := charAt_key key hkey i
  obtain ⟨k, hk2, hkpos⟩ := (mem_alphabet_iff kc).mp (hk kc hmem)
  obtain ⟨t, ht2, htpos⟩ := (mem_alphabet_iff ch).mp h
  obtain ⟨d, hd, henc⟩ := vigenere_processChar_encrypt key i t k ch kc hkc htpos hkpos
  obtain ⟨e, he, hdec⟩ := vigenere_processChar_decrypt key i ((t + k + 1) % 42) k d kc hkc hd hkpos
  have hidx : ((t + k + 1) % 42 + 42 - k - 1) % 42 = t := by omega
  rw [hidx, htpos] at he
  cases he
  exact ⟨d, henc, hdec⟩

end VigenereCipher

namespace GammaCipher

theorem gamma_processChar_of_key (key : WString) (i : Nat) (textChar keyChar : WChar)
    (hkey : key[i % key.length]? = some keyChar) :
    processChar ⟨key⟩ i textChar = .ok (textChar ^^^ keyChar) := by
  have hne : key.length ≠ 0 := by
    intro h0
    have := (List.getElem?_eq_some_iff.mp hkey).1
    omega
  simp only [processChar, hne, if_false, charAt_of_get key _ keyChar hkey]

theorem gamma_processChar_round_trip (key : WString) (hkey : key ≠ []) (i : Nat) (ch : WChar) :
    ∃ d, processChar ⟨key⟩ i ch = .ok d ∧ processChar ⟨key⟩ i d = .ok ch := by
  obtain ⟨kc, hkc, _, _⟩ := charAt_key key hkey i
  refine ⟨ch ^^^ kc, gamma_processChar_of_key key i ch kc hkc, ?_⟩
  rw [gamma_processChar_of_key key i _ kc hkc, xor_xor_cancel]

end GammaCipher

namespace CaesarCipher

theorem caesar_shiftChar_total (s : Int) (ch : WChar) :
    ∃ d, shiftChar s ch = .ok d ∧ (ch ∉ alphabet → d = ch) := by
  by_cases h : ch ∈ alphabet
  · obtain ⟨d, hd⟩ := alphabet_get_mod
      (((find alphabet ch + toSizeT s) % 2 ^ 64 + alphabet.length) % 2 ^ 64)
    refine ⟨d, ?_, fun hn => absurd h hn⟩
    by_cases hf : find alphabet ch = npos
    · exfalso
      have := (stdFind_lt_iff alphabet ch).mpr h
      simp only [find, this, if_true] at hf
      rw [hf, alphabet_length] at this
      unfold npos at this
      omega
    · simp only [shiftChar, hf, ne_eq, not_false_eq_true, if_true, alphabet_length]
      exact charAt_of_get _ _ d hd
  · exact ⟨ch, caesar_shiftChar_of_not_mem s ch h, fun _ => rfl⟩

end CaesarCipher

namespace TrithemiusCipher

theorem trithemius_shiftChar_total (encrypt : Bool) (i : Nat) (ch : WChar) :
    ∃ d, shiftChar encrypt i ch = .ok d ∧ (ch ∉ alphabet → d = ch) := by
  by_cases h : ch ∈ alphabet
  · obtain ⟨p, _, hp⟩ := (mem_alphabet_iff ch).mp h
    cases encrypt with
    | true =>
      obtain ⟨d, _, hd⟩ := trithemius_shiftChar_encrypt i p ch hp
      exact ⟨d, hd, fun hn => absurd h hn⟩
    | false =>
      obtain ⟨d, _, hd⟩ := trithemius_shiftChar_decrypt i p ch hp
      exact ⟨d, hd, fun hn => absurd h hn⟩
  · exact ⟨ch, trithemius_shiftChar_of_not_mem encrypt i ch h, fun _ => rfl⟩

end TrithemiusCipher

/-- A loop whose body succeeds on every symbol, and returns the symbols outside
the alphabet as they are, returns a text that agrees with the input at every
such symbol. -/
theorem forEachIndex_pass_through (body : Nat → WChar → Except Fault WChar)
    (hbody : ∀ j c, ∃ d, body j c = .ok d ∧ (c ∉ alphabet → d = c)) (text : WString) :
    ∃ out : WString, forEachIndex body 0 text = .ok out ∧
      ∀ (i : Nat) (c : WChar), text[i]? = some c → c ∉ alphabet → out[i]? = some c := by
  obtain ⟨out, hout⟩ := forEachIndex_total body text 0
    (fun j c _ => (hbody (0 + j) c).imp fun _ h => h.1)
  refine ⟨out, hout, ?_⟩
  intro i c hc hn
  obtain ⟨d, hd, hbd⟩ := forEachIndex_get body text out 0 hout i c hc
  obtain ⟨e, he, hpass⟩ := hbody (0 + i) c
  rw [he] at hbd
  cases hbd
  rw [hd, hpass hn]

/-! ## Index ranges of VigenereCipher and lengths -/

theorem toInt_find_alphabet (ch : WChar) :
    (ch ∉ alphabet ∧ toInt (find alphabet ch) = -1) ∨
      ∃ p : Nat, p < 42 ∧ alphabet[p]? = some ch ∧ toInt (find alphabet ch) = (p : Int) := by
  by_cases h : ch ∈ alphabet
  · obtain ⟨p, hp, hch⟩ := (mem_alphabet_iff ch).mp h
    exact Or.inr ⟨p, hp, hch, by
      rw [find_of_get alphabet alphabet_nodup p ch hch, toInt_of_lt p (by omega)]⟩
  · exact Or.inl ⟨h, by rw [find_of_not_mem alphabet ch h, toInt_npos]⟩

namespace VigenereCipher

theorem vigenere_resultIndex_decrypt_range (textChar keyChar : WChar) :
    0 ≤ resultIndex false textChar keyChar ∧ resultIndex false textChar keyChar < 42 := by
  have ht : -1 ≤ toInt (find alphabet textChar) ∧ toInt (find alphabet textChar) < 42 := by
    rcases toInt_find_alphabet textChar with ⟨_, h⟩ | ⟨p, hp, _, h⟩ <;> rw [h] <;> omega
  have hk : -1 ≤ toInt (find alphabet keyChar) ∧ toInt (find alphabet keyChar) < 42 := by
    rcases toInt_find_alphabet keyChar with ⟨_, h⟩ | ⟨p, hp, _, h⟩ <;> rw [h] <;> omega
  simp only [resultIndex, alphabet_length, Bool.false_eq_true, if_false]
  generalize toInt (find alphabet textChar) = t at ht
  generalize toInt (find alphabet keyChar) = k at hk
  by_cases ha : 0 ≤ t - k - 1 + ((42 : Nat) : Int)
  · rw [Int.tmod_eq_emod ha (by omega)]
    split <;> omega
  · have hm : t - k - 1 + ((42 : Nat) : Int) = -1 := by omega
    rw [hm]
    decide

theorem vigenere_resultIndex_encrypt_range (textChar keyChar : WChar)
    (h : textChar ∈ alphabet ∨ keyChar ∈ alphabet) :
    0 ≤ resultIndex true textChar keyChar ∧ resultIndex true textChar keyChar < 42 := by
  have ht : (textChar ∉ alphabet ∧ toInt (find alphabet textChar) = -1) ∨
      (0 ≤ toInt (find alphabet textChar) ∧ toInt (find alphabet textChar) < 42) := by
    rcases toInt_find_alphabet textChar with h1 | ⟨p, hp, _, h1⟩
    · exact Or.inl h1
    · exact Or.inr (by rw [h1]; omega)
  have hk : (keyChar ∉ alphabet ∧ toInt (find alphabet keyChar) = -1) ∨
      (0 ≤ toInt (find alphabet keyChar) ∧ toInt (find alphabet keyChar) < 42) := by
    rcases toInt_find_alphabet keyChar with h1 | ⟨p, hp, _, h1⟩
    · exact Or.inl h1
    · exact Or.inr (by rw [h1]; omega)
  simp only [resultIndex, alphabet_length, if_true]
  generalize toInt (find alphabet textChar) = t at ht
  generalize toInt (find alphabet keyChar) = k at hk
  have ha : 0 ≤ t + k + 1 := by
    rcases ht with ⟨hn, _⟩ | ht
    · rcases hk with ⟨hn2, _⟩ | hk
      · rcases h with h | h
        · exact absurd h hn
        · exact absurd h hn2
      · omega
    · rcases hk with ⟨_, hk⟩ | hk <;> omega
  rw [Int.tmod_eq_emod ha (by omega)]
  omega

theorem vigenere_resultIndex_encrypt_neg (textChar keyChar : WChar)
    (ht : textChar ∉ alphabet) (hk : keyChar ∉ alphabet) :
    resultIndex true textChar keyChar = -1 := by
  simp only [resultIndex, find_of_not_mem alphabet _ ht, find_of_not_mem alphabet _ hk,
    toInt_npos, alphabet_length, if_true]
  decide

theorem charAt_alphabet_of_range (z : Int) (h : 0 ≤ z ∧ z < 42) :
    ∃ d, charAt alphabet (toSizeT z) = .ok d ∧ d ∈ alphabet := by
  obtain ⟨n, rfl⟩ := Int.eq_ofNat_of_zero_le h.1
  have hn : n < 42 := by omega
  rw [toSizeT_natCast n (by omega)]
  have hlt : n < alphabet.length := by rw [alphabet_length]; exact hn
  exact ⟨alphabet[n], charAt_of_get _ _ _ (List.getElem?_eq_getElem hlt),
    List.getElem_mem hlt⟩

theorem vigenere_processChar_decrypt_total (key : WString) (hkey : key ≠ []) (i : Nat)
    (textChar : WChar) : ∃ d, processChar ⟨key⟩ false i textChar = .ok d := by
  obtain ⟨kc, _, _, hkc⟩ := charAt_key key hkey i
  have hne : key.length ≠ 0 := fun h0 => hkey (List.length_eq_zero.mp h0)
  obtain ⟨d, hd, _⟩ := charAt_alphabet_of_range _
    (vigenere_resultIndex_decrypt_range textChar kc)
  exact ⟨d, by simp only [processChar, hne, if_false, hkc, hd]⟩

theorem vigenere_processChar_encrypt_total (key : WString) (i : Nat)
    (textChar keyChar : WChar) (hkey : key[i % key.length]? = some keyChar)
    (h : textChar ∈ alphabet ∨ keyChar ∈ alphabet) :
    ∃ d, processChar ⟨key⟩ true i textChar = .ok d := by
  have hne : key.length ≠ 0 := by
    intro h0
    have := (List.getElem?_eq_some_iff.mp hkey).1
    omega
  obtain ⟨d, hd, _⟩ := charAt_alphabet_of_range _
    (vigenere_resultIndex_encrypt_range textChar keyChar h)
  exact ⟨d, by simp only [processChar, hne, if_false, charAt_of_get key _ keyChar hkey, hd]⟩

end VigenereCipher

/-- The operations other than `VigenereCipher.encrypt` return a text as long as
their input on every text, for every non-empty key; `VigenereCipher.encrypt`
does so on a text that has, at no index, a symbol outside the alphabet facing a
key symbol outside the alphabet. -/
theorem length_preserved (key text : WString) (hkey : key ≠ []) :
    (∃ out, CaesarCipher.encrypt text = .ok out ∧ out.length = text.length) ∧
    (∃ out, CaesarCipher.decrypt text = .ok out ∧ out.length = text.length) ∧
    (∃ out, TrithemiusCipher.encrypt text = .ok out ∧ out.length = text.length) ∧
    (∃ out, TrithemiusCipher.decrypt text = .ok out ∧ out.length = text.length) ∧
    (∃ out, (GammaCipher.mk key).encrypt text = .ok out ∧ out.length = text.length) ∧
    (∃ out, (GammaCipher.mk key).decrypt text = .ok out ∧ out.length = text.length) ∧
    (∃ out, (VigenereCipher.mk key).decrypt text = .ok out ∧ out.length = text.length) ∧
    ((∀ (i : Nat) (textChar keyChar : WChar), text[i]? = some textChar →
        key[i % key.length]? = some keyChar → textChar ∈ alphabet ∨ keyChar ∈ alphabet) →
      ∃ out, (VigenereCipher.mk key).encrypt text = .ok out ∧ out.length = text.length) := by
  have hlen : ∀ (body : Nat → WChar → Except Fault WChar),
      (∀ j c, text[j]? = some c → ∃ d, body (0 + j) c = .ok d) →
      ∃ out, forEachIndex body 0 text = .ok out ∧ out.length = text.length := by
    intro body hbody
    obtain ⟨out, hout⟩ := forEachIndex_total body text 0 hbody
    exact ⟨out, hout, forEachIndex_length body text out 0 hout⟩
  refine ⟨hlen _ ?_, hlen _ ?_, hlen _ ?_, hlen _ ?_, hlen _ ?_, hlen _ ?_, hlen _ ?_, ?_⟩
  · exact fun _ c _ => (CaesarCipher.caesar_shiftChar_total 3 c).imp fun _ h => h.1
  · exact fun _ c _ => (CaesarCipher.caesar_shiftChar_total (-3) c).imp fun _ h => h.1
  · exact fun j c _ =>
      (TrithemiusCipher.trithemius_shiftChar_total true (0 + j) c).imp fun _ h => h.1
  · exact fun j c _ =>
      (TrithemiusCipher.trithemius_shiftChar_total false (0 + j) c).imp fun _ h => h.1
  · exact fun j c _ =>
      (GammaCipher.gamma_processChar_round_trip key hkey (0 + j) c).imp fun _ h => h.1
  · exact fun j c _ =>
      (GammaCipher.gamma_processChar_round_trip key hkey (0 + j) c).imp fun _ h => h.1
  · exact fun j c _ => VigenereCipher.vigenere_processChar_decrypt_total key hkey (0 + j) c
  · intro h
    refine hlen _ ?_
    intro j c hc
    obtain ⟨kc, hkc, _, _⟩ := charAt_key key hkey (0 + j)
    refine VigenereCipher.vigenere_processChar_encrypt_total key (0 + j) c kc hkc ?_
    rw [Nat.zero_add] at hkc
    exact h j c kc hc hkc

/-! ## Rotations of the alphabet -/

theorem rotate_alphabet_get_le (m p : Nat) (hm : m ≤ 42) (hp : p < 42) :
    (rotate alphabet m)[p]? = alphabet[(p + m) % 42]? := by
  rw [rotate_eq_rotate alphabet m (by rw [alphabet_length]; exact hm),
    List.getElem?_rotate (by rw [alphabet_length]; exact hp), alphabet_length]

theorem rotateLeft_alphabet (n : Nat) : alphabet.rotateLeft n = rotate alphabet (n % 42) := by
  simp [List.rotateLeft, rotate, alphabet_length]

theorem rotateRight_alphabet (n : Nat) :
    alphabet.rotateRight n = rotate alphabet (42 - n % 42) := by
  simp [List.rotateRight, rotate, alphabet_length]

/-! ## Repeated Caesar encryption -/

theorem caesar_encrypt_get (text : WString) :
    ∃ out : WString, CaesarCipher.encrypt text = .ok out ∧ out.length = text.length ∧
      ∀ (i : Nat) (c : WChar), text[i]? = some c →
        (c ∉ alphabet → out[i]? = some c) ∧
        (∀ p : Nat, alphabet[p]? = some c → out[i]? = alphabet[(p + 3) % 42]?) := by
  obtain ⟨out, hout⟩ := forEachIndex_total (fun _ ch => CaesarCipher.shiftChar 3 ch) text 0
    (fun _ c _ => (CaesarCipher.caesar_shiftChar_total 3 c).imp fun _ h => h.1)
  refine ⟨out, hout, forEachIndex_length _ text out 0 hout, ?_⟩
  intro i c hi
  obtain ⟨d, hd, hbd⟩ := forEachIndex_get _ text out 0 hout i c hi
  constructor
  · intro hn
    simp only [CaesarCipher.caesar_shiftChar_of_not_mem 3 c hn] at hbd
    cases hbd
    exact hd
  · intro p hp
    obtain ⟨e, he, hbe⟩ := CaesarCipher.caesar_shiftChar_encrypt p c hp
    simp only [hbe] at hbd
    cases hbd
    rw [hd, he]

theorem caesar_applyTimes_get (n : Nat) (text : WString) :
    ∃ out : WString, applyTimes CaesarCipher.encrypt n text = .ok out ∧
      out.length = text.length ∧
      ∀ (i : Nat) (c : WChar), text[i]? = some c →
        (c ∉ alphabet → out[i]? = some c) ∧
        (∀ p : Nat, alphabet[p]? = some c → out[i]? = alphabet[(p + 3 * n) % 42]?) := by
  induction n with
  | zero =>
    refine ⟨text, rfl, rfl, ?_⟩
    intro i c hi
    refine ⟨fun _ => hi, ?_⟩
    intro p hp
    have hp2 := alphabet_get_lt p c hp
    have hidx : (p + 3 * 0) % 42 = p := by omega
    rw [hidx, hi, hp]
  | succ n ih =>
    obtain ⟨mid, hmid, hlen, hget⟩ := ih
    obtain ⟨out, hout, hlen2, hget2⟩ := caesar_encrypt_get mid
    refine ⟨out, by simp only [applyTimes, hmid, hout], by rw [hlen2, hlen], ?_⟩
    intro i c hi
    obtain ⟨hpass, hpos⟩ := hget i c hi
    constructor
    · intro hn
      exact (hget2 i c (hpass hn)).1 hn
    · intro p hp
      have hp2 := alphabet_get_lt p c hp
      obtain ⟨d, hd⟩ := alphabet_get_mod (p + 3 * n)
      have hmidi : mid[i]? = some d := by rw [hpos p hp, hd]
      have := (hget2 i d hmidi).2 _ hd
      rw [this]
      congr 1
      omega

/-! ## Trithemius encryption of a text behind a prefix -/

theorem trithemius_encrypt_append_get (u s : WString) :
    ∃ out : WString, TrithemiusCipher.encrypt (u ++ s) = .ok out ∧
      (out.drop (out.length - s.length)).length = s.length ∧
      ∀ (j p : Nat) (c : WChar), s[j]? = some c → alphabet[p]? = some c →
        (out.drop (out.length - s.length))[j]? = alphabet[(p + u.length + j) % 42]? := by
  obtain ⟨out, hout⟩ := forEachIndex_total (TrithemiusCipher.shiftChar true) (u ++ s) 0
    (fun j c _ => (TrithemiusCipher.trithemius_shiftChar_total true (0 + j) c).imp
      fun _ h => h.1)
  have hlen : out.length = u.length + s.length := by
    rw [forEachIndex_length _ _ out 0 hout, List.length_append]
  refine ⟨out, hout, by rw [List.length_drop]; omega, ?_⟩
  intro j p c hj hp
  have hidx : out.length - s.length + j = u.length + j := by omega
  have hus : (u ++ s)[u.length + j]? = some c := by
    rw [List.getElem?_append_right (by omega)]
    simpa using hj
  obtain ⟨d, hd, hbd⟩ := forEachIndex_get _ (u ++ s) out 0 hout (u.length + j) c hus
  obtain ⟨e, he, hbe⟩ := TrithemiusCipher.trithemius_shiftChar_encrypt (u.length + j) p c hp
  rw [Nat.zero_add, hbe] at hbd
  cases hbd
  rw [List.getElem?_drop, hidx, hd, ← he]
  congr 1
  omega

/-! ## Symbols produced by VigenereCipher -/

theorem forEachIndex_all (body : Nat → WChar → Except Fault WChar) (Q : WChar → Prop)
    (text : WString) (i : Nat)
    (hbody : ∀ j c, text[j]? = some c → ∃ d, body (i + j) c = .ok d ∧ Q d) :
    ∃ out : WString, forEachIndex body i text = .ok out ∧ ∀ d ∈ out, Q d := by
  obtain ⟨out, hout⟩ := forEachIndex_total body text i
    (fun j c hc => (hbody j c hc).imp fun _ h => h.1)
  refine ⟨out, hout, ?_⟩
  intro d hd
  obtain ⟨j, hj⟩ := List.mem_iff_getElem?.mp hd
  have hlen := forEachIndex_length body text out i hout
  have hjlt : j < text.length := by
    rw [← hlen]
    exact (List.getElem?_eq_some_iff.mp hj).1
  obtain ⟨d2, hd2, hb2⟩ := forEachIndex_get body text out i hout j text[j]
    (List.getElem?_eq_getElem hjlt)
  obtain ⟨d3, hb3, hq⟩ := hbody j text[j] (List.getElem?_eq_getElem hjlt)
  rw [hj] at hd2
  cases hd2
  rw [hb3] at hb2
  cases hb2
  exact hq

theorem forEachIndex_id (body : Nat → WChar → Except Fault WChar) (text : WString) (i : Nat)
    (hbody : ∀ j c, text[j]? = some c → body (i + j) c = .ok c) :
    forEachIndex body i text = .ok text := by
  rw [forEachIndex_ok_iff]
  refine ⟨rfl, ?_⟩
  intro j c d hc hd
  rw [hc] at hd
  cases hd
  exact hbody j c hc

namespace VigenereCipher

theorem vigenere_processChar_encrypt_fault (key : WString) (i : Nat)
    (textChar keyChar : WChar) (hkey : key[i % key.length]? = some keyChar)
    (ht : textChar ∉ alphabet) (hk : keyChar ∉ alphabet) :
    processChar ⟨key⟩ true i textChar = .error .outOfBounds := by
  have hne : key.length ≠ 0 := by
    intro h0
    have := (List.getElem?_eq_some_iff.mp hkey).1
    omega
  simp only [processChar, hne, if_false, charAt_of_get key _ keyChar hkey,
    vigenere_resultIndex_encrypt_neg textChar keyChar ht hk]
  rfl

theorem vigenere_processChar_mem (key : WString) (isEncrypt : Bool) (i : Nat)
    (textChar d : WChar) (h : processChar ⟨key⟩ isEncrypt i textChar = .ok d) :
    d ∈ alphabet := by
  by_cases hne : key.length = 0
  · simp [processChar, hne] at h
  · have hkey : key ≠ [] := fun h0 => hne (by rw [h0]; rfl)
    obtain ⟨kc, hkc, _, hkat⟩ := charAt_key key hkey i
    cases isEncrypt with
    | false =>
      obtain ⟨e, he, hmem⟩ := charAt_alphabet_of_range _
        (vigenere_resultIndex_decrypt_range textChar kc)
      simp only [processChar, hne, if_false, hkat, he] at h
      cases h
      exact hmem
    | true =>
      by_cases hin : textChar ∈ alphabet ∨ kc ∈ alphabet
      · obtain ⟨e, he, hmem⟩ := charAt_alphabet_of_range _
          (vigenere_resultIndex_encrypt_range textChar kc hin)
        simp only [processChar, hne, if_false, hkat, he] at h
        cases h
        exact hmem
      · rw [not_or] at hin
        rw [vigenere_processChar_encrypt_fault key i textChar kc hkc hin.1 hin.2] at h
        cases h

theorem vigenere_processChar_sentinel (key : WString) (i k : Nat) (textChar keyChar : WChar)
    (hkey : key[i % key.length]? = some keyChar) (ht : textChar ∉ alphabet)
    (hk : alphabet[k]? = some keyChar) :
    resultIndex true textChar keyChar = (k : Int) ∧
      processChar ⟨key⟩ true i textChar = .ok keyChar := by
  have hk2 := alphabet_get_lt k keyChar hk
  have hne : key.length ≠ 0 := by
    intro h0
    have := (List.getElem?_eq_some_iff.mp hkey).1
    omega
  have hidx : resultIndex true textChar keyChar = (k : Int) := by
    simp only [resultIndex, find_of_not_mem alphabet _ ht, toInt_npos,
      find_of_get alphabet alphabet_nodup k keyChar hk, toInt_of_lt k (by omega),
      alphabet_length, if_true]
    rw [Int.tmod_eq_emod (by omega) (by omega)]
    omega
  refine ⟨hidx, ?_⟩
  simp only [processChar, hne, if_false, charAt_of_get key _ keyChar hkey, hidx]
  rw [toSizeT_natCast _ (by omega)]
  exact charAt_of_get _ _ keyChar hk

theorem vigenere_processChar_outside_key (key : WString) (isEncrypt : Bool) (i t : Nat)
    (textChar keyChar : WChar) (hkey : key[i % key.length]? = some keyChar)
    (ht : alphabet[t]? = some textChar) (hk : keyChar ∉ alphabet) :
    processChar ⟨key⟩ isEncrypt i textChar = .ok textChar := by
  have ht2 := alphabet_get_lt t textChar ht
  have hne : key.length ≠ 0 := by
    intro h0
    have := (List.getElem?_eq_some_iff.mp hkey).1
    omega
  have hidx : resultIndex isEncrypt textChar keyChar = (t : Int) := by
    cases isEncrypt with
    | true =>
      simp only [resultIndex, find_of_not_mem alphabet _ hk, toInt_npos,
        find_of_get alphabet alphabet_nodup t textChar ht, toInt_of_lt t (by omega),
        alphabet_length, if_true]
      rw [Int.tmod_eq_emod (by omega) (by omega)]
      omega
    | false =>
      simp only [resultIndex, find_of_not_mem alphabet _ hk, toInt_npos,
        find_of_get alphabet alphabet_nodup t textChar ht, toInt_of_lt t (by omega),
        alphabet_length, Bool.false_eq_true, if_false]
      rw [Int.tmod_eq_emod (by omega) (by omega)]
      have h0 : ¬ (((t : Int) - -1 - 1 + ((42 : Nat) : Int)) % ((42 : Nat) : Int) < 0) := by
        omega
      rw [if_neg h0]
      omega
  simp only [processChar, hne, if_false, charAt_of_get key _ keyChar hkey, hidx]
  rw [toSizeT_natCast _ (by omega)]
  exact charAt_of_get _ _ textChar ht

end VigenereCipher

/-! ## The subscript of line 130 without a bounds check -/

/-- The key "z" and the text "z": neither symbol is in the alphabet, the index
computed by `encrypt` is -1, and the subscript `alphabet[-1]` is out of
bounds. -/
theorem vigenere_encrypt_out_of_bounds :
    ([122] : WString) ≠ [] ∧
    VigenereCipher.resultIndex true 122 122 = -1 ∧
    (VigenereCipher.mk [122]).encrypt [122] = .error .outOfBounds :=
  ⟨by decide, by decide, rfl⟩

namespace VigenereCipher

theorem vigenere_processCharUnchecked_total (memory : Nat → WChar) (key : WString)
    (hkey : key ≠ []) (isEncrypt : Bool) (i : Nat) (textChar : WChar) :
    ∃ d, processCharUnchecked memory ⟨key⟩ isEncrypt i textChar = .ok d := by
  obtain ⟨kc, _, _, hkc⟩ := charAt_key key hkey i
  have hne : key.length ≠ 0 := fun h0 => hkey (List.length_eq_zero.mp h0)
  exact ⟨charAtUnchecked memory alphabet (toSizeT (resultIndex isEncrypt textChar kc)), by
    simp only [processCharUnchecked, hne, if_false, hkc]⟩

theorem vigenere_processCharUnchecked_of_ok (memory : Nat → WChar) (key : WString)
    (isEncrypt : Bool) (i : Nat) (textChar d : WChar)
    (h : processChar ⟨key⟩ isEncrypt i textChar = .ok d) :
    processCharUnchecked memory ⟨key⟩ isEncrypt i textChar = .ok d := by
  by_cases hne : key.length = 0
  · simp [processChar, hne] at h
  · simp only [processChar, hne, if_false] at h
    simp only [processCharUnchecked, hne, if_false]
    cases hk : charAt key (i % key.length) with
    | error e => simp [hk] at h
    | ok keyChar =>
      simp only [hk] at h
      simp only [charAtUnchecked, h]

end VigenereCipher

/-! ## The claims -/

/-- C1. Vigenere round trip: for every text composed solely of alphabet symbols
and every non-empty key composed of alphabet symbols, encrypting with the key
returns a ciphertext, and decrypting that ciphertext with the same key returns
the text. -/
theorem vigenere_round_trip (key text : WString) (hkey : key ≠ [])
    (hk : ∀ c ∈ key, c ∈ alphabet) (ht : ∀ c ∈ text, c ∈ alphabet) :
    ∃ cipherText, (VigenereCipher.mk key).encrypt text = .ok cipherText ∧
      (VigenereCipher.mk key).decrypt cipherText = .ok text :=
  forEachIndex_round_trip _ _ (· ∈ alphabet)
    (fun j c hc => VigenereCipher.vigenere_processChar_round_trip key hkey hk j c hc) text 0 ht

/-- Witness of C1: the key "бя" and the text "а–  ,". -/
theorem vigenere_round_trip_witness :
    ([1073, 1103] : WString) ≠ [] ∧
    (∀ c ∈ ([1073, 1103] : WString), c ∈ alphabet) ∧
    (∀ c ∈ ([1072, 8211, 32, 32, 44] : WString), c ∈ alphabet) ∧
    ∃ cipherText, (VigenereCipher.mk [1073, 1103]).encrypt [1072, 8211, 32, 32, 44]
        = .ok cipherText ∧
      (VigenereCipher.mk [1073, 1103]).decrypt cipherText = .ok [1072, 8211, 32, 32, 44] :=
  ⟨by decide, by simp [alphabet], by simp [alphabet],
    vigenere_round_trip [1073, 1103] [1072, 8211, 32, 32, 44] (by decide)
      (by simp [alphabet]) (by simp [alphabet])⟩

/-- C2. Trithemius round trip: for every text composed solely of alphabet
symbols, of any length, encrypting returns a ciphertext and decrypting that
ciphertext returns the text. -/
theorem trithemius_round_trip (text : WString) (ht : ∀ c ∈ text, c ∈ alphabet) :
    ∃ cipherText, TrithemiusCipher.encrypt text = .ok cipherText ∧
      TrithemiusCipher.decrypt cipherText = .ok text :=
  forEachIndex_round_trip _ _ (· ∈ alphabet)
    (fun j c hc => TrithemiusCipher.trithemius_shiftChar_round_trip j c hc) text 0 ht

/-- Witness of C2: a text of 100 symbols, longer than the alphabet. -/
theorem trithemius_round_trip_witness :
    (∀ c ∈ (List.replicate 100 1103 : WString), c ∈ alphabet) ∧
    ∃ cipherText, TrithemiusCipher.encrypt (List.replicate 100 1103) = .ok cipherText ∧
      TrithemiusCipher.decrypt cipherText = .ok (List.replicate 100 1103) :=
  ⟨by simp [alphabet], trithemius_round_trip (List.replicate 100 1103) (by simp [alphabet])⟩

/-- C3. Caesar round trip: for every text composed solely of alphabet symbols,
encrypting returns a ciphertext and decrypting that ciphertext returns the
text. -/
theorem caesar_round_trip (text : WString) (ht : ∀ c ∈ text, c ∈ alphabet) :
    ∃ cipherText, CaesarCipher.encrypt text = .ok cipherText ∧
      CaesarCipher.decrypt cipherText = .ok text :=
  forEachIndex_round_trip _ _ (· ∈ alphabet)
    (fun _ c hc => CaesarCipher.caesar_shiftChar_round_trip c hc) text 0 ht

/-- Witness of C3: the text "а я–". -/
theorem caesar_round_trip_witness :
    (∀ c ∈ ([1072, 32, 1103, 8211] : WString), c ∈ alphabet) ∧
    ∃ cipherText, CaesarCipher.encrypt [1072, 32, 1103, 8211] = .ok cipherText ∧
      CaesarCipher.decrypt cipherText = .ok [1072, 32, 1103, 8211] :=
  ⟨by simp [alphabet], caesar_round_trip [1072, 32, 1103, 8211] (by simp [alphabet])⟩

/-- C4. Gamma involution: for every non-empty key, `encrypt` and `decrypt` are
the same function, and for every text (alphabet symbols or not) `process`
returns a result on which `process` returns the text again. -/
theorem gamma_involution (key text : WString) (hkey : key ≠ []) :
    (GammaCipher.mk key).encrypt = (GammaCipher.mk key).decrypt ∧
    ∃ out, (GammaCipher.mk key).process text = .ok out ∧
      (GammaCipher.mk key).process out = .ok text :=
  ⟨rfl, forEachIndex_round_trip _ _ (fun _ => True)
    (fun j c _ => GammaCipher.gamma_processChar_round_trip key hkey j c) text 0
    (fun _ _ => trivial)⟩

/-- Witness of C4: the key "k" and the text "hello". -/
theorem gamma_involution_witness :
    ([107] : WString) ≠ [] ∧
    ((GammaCipher.mk [107]).encrypt = (GammaCipher.mk [107]).decrypt ∧
    ∃ out, (GammaCipher.mk [107]).process [104, 101, 108, 108, 111] = .ok out ∧
      (GammaCipher.mk [107]).process out = .ok [104, 101, 108, 108, 111]) :=
  ⟨by decide, gamma_involution [107] [104, 101, 108, 108, 111] (by decide)⟩

/-- Counterexample to C5: both constructors accept the zero-length key, and the
ciphers so constructed reach the remainder by key length 0 on the text "а". -/
theorem empty_key_accepted :
    VigenereCipher.new [] = .ok ⟨[]⟩ ∧
    GammaCipher.new [] = .ok ⟨[]⟩ ∧
    (VigenereCipher.mk []).encrypt [1072] = .error .divisionByZero ∧
    (GammaCipher.mk []).encrypt [1072] = .error .divisionByZero :=
  ⟨rfl, rfl, rfl, rfl⟩

/-- C5, amended. Constructing a `VigenereCipher` or a `GammaCipher` succeeds
for every key, the zero-length key included; the ciphers constructed with the
zero-length key return the empty text on the empty text, and on every
non-empty text `encrypt` and `decrypt` take the remainder by key length 0 at
the first symbol, before any symbol is output. -/
theorem empty_key_reaches_remainder_by_zero (key text : WString) (htext : text ≠ []) :
    VigenereCipher.new key = .ok ⟨key⟩ ∧
    GammaCipher.new key = .ok ⟨key⟩ ∧
    (VigenereCipher.mk []).encrypt [] = .ok [] ∧
    (VigenereCipher.mk []).decrypt [] = .ok [] ∧
    (GammaCipher.mk []).encrypt [] = .ok [] ∧
    (GammaCipher.mk []).decrypt [] = .ok [] ∧
    (VigenereCipher.mk []).encrypt text = .error .divisionByZero ∧
    (VigenereCipher.mk []).decrypt text = .error .divisionByZero ∧
    (GammaCipher.mk []).encrypt text = .error .divisionByZero ∧
    (GammaCipher.mk []).decrypt text = .error .divisionByZero := by
  cases text with
  | nil => exact absurd rfl htext
  | cons ch rest => exact ⟨rfl, rfl, rfl, rfl, rfl, rfl, rfl, rfl, rfl, rfl⟩

/-- Witness of C5, amended: the zero-length key and the text "а". -/
theorem empty_key_reaches_remainder_by_zero_witness :
    ([1072] : WString) ≠ [] ∧
    (VigenereCipher.new [] = .ok ⟨[]⟩ ∧
    GammaCipher.new [] = .ok ⟨[]⟩ ∧
    (VigenereCipher.mk []).encrypt [] = .ok [] ∧
    (VigenereCipher.mk []).decrypt [] = .ok [] ∧
    (GammaCipher.mk []).encrypt [] = .ok [] ∧
    (GammaCipher.mk []).decrypt [] = .ok [] ∧
    (VigenereCipher.mk []).encrypt [1072] = .error .divisionByZero ∧
    (VigenereCipher.mk []).decrypt [1072] = .error .divisionByZero ∧
    (GammaCipher.mk []).encrypt [1072] = .error .divisionByZero ∧
    (GammaCipher.mk []).decrypt [1072] = .error .divisionByZero) :=
  ⟨by decide, empty_key_reaches_remainder_by_zero [] [1072] (by decide)⟩

/-- C6 at the key "а" and the text "z": the Latin letter is not in the
alphabet, the key is, and `encrypt` returns "а" (the key symbol) while
`decrypt` returns the double quote (position 40), not "z". -/
theorem vigenere_replaces_non_alphabet_symbol :
    (122 : WChar) ∉ alphabet ∧
    (∀ c ∈ ([1072] : WString), c ∈ alphabet) ∧
    (VigenereCipher.mk [1072]).encrypt [122] = .ok [1072] ∧
    (VigenereCipher.mk [1072]).decrypt [122] = .ok [34] ∧
    alphabet[40]? = some 34 :=
  ⟨by decide, by simp [alphabet], rfl, rfl, by decide⟩

/-- C7. Caesar and Trithemius pass-through: on every text the four operations
`CaesarCipher.encrypt`, `CaesarCipher.decrypt`, `TrithemiusCipher.encrypt` and
`TrithemiusCipher.decrypt` return a result (none of them reaches a fault), and
every symbol of the text that is not in the alphabet stands unchanged at the
same position of each of the four results. -/
theorem caesar_trithemius_pass_through (text : WString) :
    (∃ out : WString, CaesarCipher.encrypt text = .ok out ∧
      ∀ (i : Nat) (c : WChar), text[i]? = some c → c ∉ alphabet → out[i]? = some c) ∧
    (∃ out : WString, CaesarCipher.decrypt text = .ok out ∧
      ∀ (i : Nat) (c : WChar), text[i]? = some c → c ∉ alphabet → out[i]? = some c) ∧
    (∃ out : WString, TrithemiusCipher.encrypt text = .ok out ∧
      ∀ (i : Nat) (c : WChar), text[i]? = some c → c ∉ alphabet → out[i]? = some c) ∧
    (∃ out : WString, TrithemiusCipher.decrypt text = .ok out ∧
      ∀ (i : Nat) (c : WChar), text[i]? = some c → c ∉ alphabet → out[i]? = some c) :=
  ⟨forEachIndex_pass_through _ (fun _ c => CaesarCipher.caesar_shiftChar_total 3 c) text,
   forEachIndex_pass_through _ (fun _ c => CaesarCipher.caesar_shiftChar_total (-3) c) text,
   forEachIndex_pass_through _ (fun j c => TrithemiusCipher.trithemius_shiftChar_total true j c) text,
   forEachIndex_pass_through _ (fun j c => TrithemiusCipher.trithemius_shiftChar_total false j c) text⟩

/-- C8. Length preservation: for every text, and every non-empty key for
Vigenere and Gamma, `encrypt` and `decrypt` of each of the four variants return
a text of the length of the input.  `VigenereCipher.encrypt` does so with the
subscript of line 130 executed as it stands, whatever code unit the read yields
where the index is -1; each text it returns under the fault model has that
length too and is the same text. -/
theorem length_preservation (key text : WString) (memory : Nat → WChar) (hkey : key ≠ []) :
    (∃ out, CaesarCipher.encrypt text = .ok out ∧ out.length = text.length) ∧
    (∃ out, CaesarCipher.decrypt text = .ok out ∧ out.length = text.length) ∧
    (∃ out, TrithemiusCipher.encrypt text = .ok out ∧ out.length = text.length) ∧
    (∃ out, TrithemiusCipher.decrypt text = .ok out ∧ out.length = text.length) ∧
    (∃ out, (GammaCipher.mk key).encrypt text = .ok out ∧ out.length = text.length) ∧
    (∃ out, (GammaCipher.mk key).decrypt text = .ok out ∧ out.length = text.length) ∧
    (∃ out, (VigenereCipher.mk key).decrypt text = .ok out ∧ out.length = text.length ∧
      (VigenereCipher.mk key).decryptUnchecked memory text = .ok out) ∧
    (∃ out, (VigenereCipher.mk key).encryptUnchecked memory text = .ok out ∧
      out.length = text.length) ∧
    (∀ out, (VigenereCipher.mk key).encrypt text = .ok out →
      out.length = text.length ∧
      (VigenereCipher.mk key).encryptUnchecked memory text = .ok out) := by
  have hagree : ∀ (b : Bool) (out : WString),
      forEachIndex (VigenereCipher.processChar ⟨key⟩ b) 0 text = .ok out →
      forEachIndex (VigenereCipher.processCharUnchecked memory ⟨key⟩ b) 0 text = .ok out := by
    intro b out ho
    obtain ⟨hlen, hall⟩ := (forEachIndex_ok_iff _ text 0 out).mp ho
    exact (forEachIndex_ok_iff _ text 0 out).mpr ⟨hlen, fun j c d hc hd =>
      VigenereCipher.vigenere_processCharUnchecked_of_ok memory key b (0 + j) c d
        (hall j c d hc hd)⟩
  obtain ⟨h1, h2, h3, h4, h5, h6, ⟨dec, hdec, hdlen⟩, _⟩ := length_preserved key text hkey
  obtain ⟨out, hout⟩ := forEachIndex_total
    (VigenereCipher.processCharUnchecked memory ⟨key⟩ true) text 0
    (fun j c _ =>
      VigenereCipher.vigenere_processCharUnchecked_total memory key hkey true (0 + j) c)
  exact ⟨h1, h2, h3, h4, h5, h6, ⟨dec, hdec, hdlen, hagree false dec hdec⟩,
    ⟨out, hout, forEachIndex_length _ text out 0 hout⟩,
    fun o ho => ⟨forEachIndex_length _ text o 0 ho, hagree true o ho⟩⟩

/-- Witness of C8: the key "z" and the text "zа"; at index 0 neither symbol is
in the alphabet, the read of `alphabet[-1]` yields one code unit (here 7), and
the result has length 2. -/
theorem length_preservation_witness :
    (VigenereCipher.mk [122]).encryptUnchecked (fun _ => 7) [122, 1072] = .ok [7, 1072] ∧
    ([122] : WString) ≠ [] ∧
    ((∃ out, CaesarCipher.encrypt [122, 1072] = .ok out ∧
      out.length = ([122, 1072] : WString).length) ∧
    (∃ out, CaesarCipher.decrypt [122, 1072] = .ok out ∧
      out.length = ([122, 1072] : WString).length) ∧
    (∃ out, TrithemiusCipher.encrypt [122, 1072] = .ok out ∧
      out.length = ([122, 1072] : WString).length) ∧
    (∃ out, TrithemiusCipher.decrypt [122, 1072] = .ok out ∧
      out.length = ([122, 1072] : WString).length) ∧
    (∃ out, (GammaCipher.mk [122]).encrypt [122, 1072] = .ok out ∧
      out.length = ([122, 1072] : WString).length) ∧
    (∃ out, (GammaCipher.mk [122]).decrypt [122, 1072] = .ok out ∧
      out.length = ([122, 1072] : WString).length) ∧
    (∃ out, (VigenereCipher.mk [122]).decrypt [122, 1072] = .ok out ∧
      out.length = ([122, 1072] : WString).length ∧
      (VigenereCipher.mk [122]).decryptUnchecked (fun _ => 7) [122, 1072] = .ok out) ∧
    (∃ out, (VigenereCipher.mk [122]).encryptUnchecked (fun _ => 7) [122, 1072] = .ok out ∧
      out.length = ([122, 1072] : WString).length) ∧
    (∀ out, (VigenereCipher.mk [122]).encrypt [122, 1072] = .ok out →
      out.length = ([122, 1072] : WString).length ∧
      (VigenereCipher.mk [122]).encryptUnchecked (fun _ => 7) [122, 1072] = .ok out)) :=
  ⟨rfl, by decide, length_preservation [122] [122, 1072] (fun _ => 7) (by decide)⟩

/-- C9. Vigenere formula and key cycling: for every text of alphabet symbols
and every non-empty key of alphabet symbols, `encrypt` and `decrypt` return a
result, and at every index `i`, with `t` the alphabet position of `text[i]` and
`k` the alphabet position of `key[i mod keyLength]`, the result of `encrypt`
holds the alphabet symbol at position `(t + k + 1) mod L` and the result of
`decrypt` holds the alphabet symbol at position `(t - k - 1 + L) mod L`. -/
theorem vigenere_formula (key text : WString) (hkey : key ≠ [])
    (hk : ∀ c ∈ key, c ∈ alphabet) (ht : ∀ c ∈ text, c ∈ alphabet) :
    ∃ enc dec : WString,
      (VigenereCipher.mk key).encrypt text = .ok enc ∧
      (VigenereCipher.mk key).decrypt text = .ok dec ∧
      ∀ (i t k : Nat) (textChar keyChar : WChar),
        text[i]? = some textChar → key[i % key.length]? = some keyChar →
        alphabet[t]? = some textChar → alphabet[k]? = some keyChar →
          enc[i]? = alphabet[(t + k + 1) % alphabet.length]? ∧
          dec[i]? = alphabet[(((t : Int) - k - 1 + alphabet.length)
            % alphabet.length).toNat]? := by
  have htotal : ∀ (b : Bool) (j : Nat) (c : WChar), text[j]? = some c →
      ∃ d, VigenereCipher.processChar ⟨key⟩ b (0 + j) c = .ok d := by
    intro b j c hc
    obtain ⟨kc, hkc, hmem, _⟩ := charAt_key key hkey (0 + j)
    obtain ⟨k, _, hkpos⟩ := (mem_alphabet_iff kc).mp (hk kc hmem)
    obtain ⟨t, _, htpos⟩ := (mem_alphabet_iff c).mp (ht c (List.getElem?_mem hc))
    cases b with
    | true =>
      obtain ⟨d, _, hd⟩ := VigenereCipher.vigenere_processChar_encrypt key (0 + j) t k c kc
        hkc htpos hkpos
      exact ⟨d, hd⟩
    | false =>
      obtain ⟨d, _, hd⟩ := VigenereCipher.vigenere_processChar_decrypt key (0 + j) t k c kc
        hkc htpos hkpos
      exact ⟨d, hd⟩
  obtain ⟨enc, henc⟩ := forEachIndex_total _ text 0 (htotal true)
  obtain ⟨dec, hdec⟩ := forEachIndex_total _ text 0 (htotal false)
  refine ⟨enc, dec, henc, hdec, ?_⟩
  intro i t k textChar keyChar hi hki htpos hkpos
  have hk2 := alphabet_get_lt k keyChar hkpos
  obtain ⟨e, he, hbe⟩ := forEachIndex_get _ text enc 0 henc i textChar hi
  obtain ⟨d, hd, hbd⟩ := forEachIndex_get _ text dec 0 hdec i textChar hi
  rw [Nat.zero_add] at hbe hbd
  obtain ⟨e2, he2, hbe2⟩ := VigenereCipher.vigenere_processChar_encrypt key i t k textChar
    keyChar hki htpos hkpos
  obtain ⟨d2, hd2, hbd2⟩ := VigenereCipher.vigenere_processChar_decrypt key i t k textChar
    keyChar hki htpos hkpos
  rw [hbe2] at hbe
  rw [hbd2] at hbd
  cases hbe
  cases hbd
  have hidx : (((t : Int) - k - 1 + (42 : Nat)) % (42 : Nat)).toNat = (t + 42 - k - 1) % 42 := by
    omega
  rw [alphabet_length, hidx, he, hd, he2, hd2]
  exact ⟨rfl, rfl⟩

/-- Witness of C9: the key "б" (position 1) and the text "а" (position 0),
which encrypts to "в" (position 2). -/
theorem vigenere_formula_witness :
    (VigenereCipher.mk [1073]).encrypt [1072] = .ok [1074] ∧
    alphabet[2]? = some 1074 ∧
    ([1073] : WString) ≠ [] ∧
    (∀ c ∈ ([1073] : WString), c ∈ alphabet) ∧
    (∀ c ∈ ([1072] : WString), c ∈ alphabet) ∧
    ∃ enc dec : WString,
      (VigenereCipher.mk [1073]).encrypt [1072] = .ok enc ∧
      (VigenereCipher.mk [1073]).decrypt [1072] = .ok dec ∧
      ∀ (i t k : Nat) (textChar keyChar : WChar),
        ([1072] : WString)[i]? = some textChar →
        ([1073] : WString)[i % ([1073] : WString).length]? = some keyChar →
        alphabet[t]? = some textChar → alphabet[k]? = some keyChar →
          enc[i]? = alphabet[(t + k + 1) % alphabet.length]? ∧
          dec[i]? = alphabet[(((t : Int) - k - 1 + alphabet.length)
            % alphabet.length).toNat]? :=
  ⟨rfl, by decide, by decide, by simp [alphabet], by simp [alphabet],
    vigenere_formula [1073] [1072] (by decide) (by simp [alphabet]) (by simp [alphabet])⟩

/-- C10. Trithemius formula: on every text `encrypt` and `decrypt` return a
result, and at every index `i` whose symbol is in the alphabet at position `p`
the result of `encrypt` holds the symbol at position `p` of the alphabet
left-rotated by `i mod L`, which is the alphabet symbol at position
`(p + i) mod L`, and the result of `decrypt` holds the symbol at position `p` of
the alphabet right-rotated by `i mod L`, which is the alphabet symbol at
position `(p - i) mod L`. -/
theorem trithemius_formula (text : WString) :
    ∃ enc dec : WString,
      TrithemiusCipher.encrypt text = .ok enc ∧
      TrithemiusCipher.decrypt text = .ok dec ∧
      ∀ (i p : Nat) (c : WChar), text[i]? = some c → alphabet[p]? = some c →
        enc[i]? = (alphabet.rotateLeft (i % alphabet.length))[p]? ∧
        enc[i]? = alphabet[(p + i) % alphabet.length]? ∧
        dec[i]? = (alphabet.rotateRight (i % alphabet.length))[p]? ∧
        dec[i]? = alphabet[(((p : Int) - i) % alphabet.length).toNat]? := by
  obtain ⟨enc, henc⟩ := forEachIndex_total (TrithemiusCipher.shiftChar true) text 0
    (fun j c _ => (TrithemiusCipher.trithemius_shiftChar_total true (0 + j) c).imp
      fun _ h => h.1)
  obtain ⟨dec, hdec⟩ := forEachIndex_total (TrithemiusCipher.shiftChar false) text 0
    (fun j c _ => (TrithemiusCipher.trithemius_shiftChar_total false (0 + j) c).imp
      fun _ h => h.1)
  refine ⟨enc, dec, henc, hdec, ?_⟩
  intro i p c hi hp
  have hp2 := alphabet_get_lt p c hp
  obtain ⟨e, he, hbe⟩ := forEachIndex_get _ text enc 0 henc i c hi
  obtain ⟨d, hd, hbd⟩ := forEachIndex_get _ text dec 0 hdec i c hi
  rw [Nat.zero_add] at hbe hbd
  obtain ⟨e2, he2, hbe2⟩ := TrithemiusCipher.trithemius_shiftChar_encrypt i p c hp
  obtain ⟨d2, hd2, hbd2⟩ := TrithemiusCipher.trithemius_shiftChar_decrypt i p c hp
  rw [hbe2] at hbe
  rw [hbd2] at hbd
  cases hbe
  cases hbd
  have hidx : (((p : Int) - i) % (42 : Nat)).toNat = (p + 42 - i % 42) % 42 := by omega
  have hl : (p + i % 42 % 42) % 42 = (p + i) % 42 := by omega
  have hr : (p + (42 - i % 42 % 42)) % 42 = (p + 42 - i % 42) % 42 := by omega
  rw [alphabet_length, hidx, rotateLeft_alphabet, rotateRight_alphabet,
    rotate_alphabet_get_le _ p (by omega) hp2, rotate_alphabet_get_le _ p (by omega) hp2,
    hl, hr, he, hd, he2, hd2]
  exact ⟨rfl, rfl, rfl, rfl⟩

/-- C11. Caesar formula: on every text `encrypt` and `decrypt` return a result,
and every symbol of the text that is in the alphabet at position `p` is
replaced by the alphabet symbol at position `(p + 3) mod L` by `encrypt` and at
position `(p - 3 + L) mod L` by `decrypt`; the index the code computes as
`index + shift + L` in `size_t` arithmetic agrees with these values. -/
theorem caesar_formula (text : WString) :
    ∃ enc dec : WString,
      CaesarCipher.encrypt text = .ok enc ∧
      CaesarCipher.decrypt text = .ok dec ∧
      ∀ (i p : Nat) (c : WChar), text[i]? = some c → alphabet[p]? = some c →
        enc[i]? = alphabet[(p + 3) % alphabet.length]? ∧
        dec[i]? = alphabet[(((p : Int) - 3 + alphabet.length) % alphabet.length).toNat]? ∧
        ((p + toSizeT 3) % 2 ^ 64 + alphabet.length) % 2 ^ 64 % alphabet.length
          = (p + 3) % alphabet.length ∧
        ((p + toSizeT (-3)) % 2 ^ 64 + alphabet.length) % 2 ^ 64 % alphabet.length
          = (((p : Int) - 3 + alphabet.length) % alphabet.length).toNat := by
  obtain ⟨enc, henc⟩ := forEachIndex_total (fun _ ch => CaesarCipher.shiftChar 3 ch) text 0
    (fun _ c _ => (CaesarCipher.caesar_shiftChar_total 3 c).imp fun _ h => h.1)
  obtain ⟨dec, hdec⟩ := forEachIndex_total (fun _ ch => CaesarCipher.shiftChar (-3) ch) text 0
    (fun _ c _ => (CaesarCipher.caesar_shiftChar_total (-3) c).imp fun _ h => h.1)
  refine ⟨enc, dec, henc, hdec, ?_⟩
  intro i p c hi hp
  have hp2 := alphabet_get_lt p c hp
  obtain ⟨e, he, hbe⟩ := forEachIndex_get _ text enc 0 henc i c hi
  obtain ⟨d, hd, hbd⟩ := forEachIndex_get _ text dec 0 hdec i c hi
  obtain ⟨e2, he2, hbe2⟩ := CaesarCipher.caesar_shiftChar_encrypt p c hp
  obtain ⟨d2, hd2, hbd2⟩ := CaesarCipher.caesar_shiftChar_decrypt p c hp
  simp only [hbe2] at hbe
  simp only [hbd2] at hbd
  cases hbe
  cases hbd
  have hidx : (((p : Int) - 3 + (42 : Nat)) % (42 : Nat)).toNat = (p + 39) % 42 := by omega
  have h3 : toSizeT 3 = 3 := by decide
  have hm3 : toSizeT (-3) = 2 ^ 64 - 3 := by decide
  rw [alphabet_length, hidx, he, hd, he2, hd2, h3, hm3]
  refine ⟨rfl, rfl, ?_, ?_⟩ <;> omega

/-- Counterexample to C12: the alphabet of line 15 does not have 43 symbols. -/
theorem alphabet_length_ne_43 : alphabet.length ≠ 43 := by decide

/-- C12, amended. The alphabet used by every cipher, the code units of the
literal of line 15, has length `L = 42`: the 33 Cyrillic letters, the space and
8 punctuation marks. -/
theorem alphabet_has_42_symbols :
    alphabet.length = 42 ∧
    alphabet.map Fin.val
      = "абвгдеёжзийклмнопрстуфхцчшщъыьэюя ,.!?-:\"–".toList.map Char.toNat ∧
    alphabet.drop 33 = [32, 44, 46, 33, 63, 45, 58, 34, 8211] := by
  decide

/-- C13. Alphabet distinctness: no symbol occurs twice in the alphabet, and the
first-occurrence lookups used by the ciphers (`wstring::find` and `std::find`)
return `p` on the symbol at position `p`, for every position `p` of the
alphabet. -/
theorem alphabet_distinct :
    alphabet.Nodup ∧
    ∀ (p : Nat) (hp : p < alphabet.length),
      find alphabet alphabet[p] = p ∧ stdFind alphabet alphabet[p] = p :=
  ⟨by decide, fun p hp =>
    ⟨find_of_get alphabet alphabet_nodup p _ (List.getElem?_eq_getElem hp),
      stdFind_of_get alphabet alphabet_nodup p _ (List.getElem?_eq_getElem hp)⟩⟩

/-- C14. Caesar periodicity: for every text, applying `CaesarCipher.encrypt`
`L` times in succession, `L` being the size of the alphabet, returns the
original text. -/
theorem caesar_periodicity (text : WString) :
    applyTimes CaesarCipher.encrypt alphabet.length text = .ok text := by
  obtain ⟨out, hout, hlen, hget⟩ := caesar_applyTimes_get 42 text
  rw [alphabet_length, hout]
  congr 1
  apply List.ext_getElem?
  intro i
  cases hi : text[i]? with
  | none =>
    rw [List.getElem?_eq_none_iff] at hi ⊢
    omega
  | some c =>
    by_cases hc : c ∈ alphabet
    · obtain ⟨p, hp, hpos⟩ := (mem_alphabet_iff c).mp hc
      have hidx : (p + 3 * 42) % 42 = p := by omega
      rw [(hget i c hi).2 p hpos, hidx, hpos]
    · exact (hget i c hi).1 hc

/-- C15. Trithemius position sensitivity: for all texts `u` and `v` and every
non-empty text `s` of alphabet symbols, `encrypt` returns a result on `u ++ s`
and on `v ++ s`; the last `|s|` symbols of the two results are equal if and
only if `|u| - |v|` is a multiple of `L`, and when it is not a multiple of `L`
they differ at every position. -/
theorem trithemius_position_sensitivity (u v s : WString) (hs : s ≠ [])
    (hmem : ∀ c ∈ s, c ∈ alphabet) :
    ∃ eu ev : WString,
      TrithemiusCipher.encrypt (u ++ s) = .ok eu ∧
      TrithemiusCipher.encrypt (v ++ s) = .ok ev ∧
      (eu.drop (eu.length - s.length) = ev.drop (ev.length - s.length) ↔
        (alphabet.length : Int) ∣ (u.length : Int) - (v.length : Int)) ∧
      (¬ (alphabet.length : Int) ∣ (u.length : Int) - (v.length : Int) →
        ∀ j : Nat, j < s.length →
          (eu.drop (eu.length - s.length))[j]? ≠ (ev.drop (ev.length - s.length))[j]?) := by
  obtain ⟨eu, heu, hlu, hgu⟩ := trithemius_encrypt_append_get u s
  obtain ⟨ev, hev, hlv, hgv⟩ := trithemius_encrypt_append_get v s
  refine ⟨eu, ev, heu, hev, ?_, ?_⟩
  · rw [alphabet_length]
    constructor
    · intro heq
      obtain ⟨c, rest, rfl⟩ := List.exists_cons_of_ne_nil hs
      obtain ⟨p, hp, hpos⟩ := (mem_alphabet_iff c).mp (hmem c (by simp))
      have h1 := hgu 0 p c (by simp) hpos
      have h2 := hgv 0 p c (by simp) hpos
      obtain ⟨d, hd⟩ := alphabet_get_mod (p + u.length + 0)
      rw [heq, h2] at h1
      rw [hd] at h1
      have := alphabet_get_inj _ _ d h1 hd
      omega
    · intro hdvd
      apply List.ext_getElem?
      intro j
      cases hj : s[j]? with
      | none =>
        rw [List.getElem?_eq_none_iff] at hj
        rw [List.getElem?_eq_none_iff.mpr (by omega), List.getElem?_eq_none_iff.mpr (by omega)]
      | some c =>
        obtain ⟨p, hp, hpos⟩ := (mem_alphabet_iff c).mp (hmem c (List.getElem?_mem hj))
        rw [hgu j p c hj hpos, hgv j p c hj hpos]
        congr 1
        omega
  · rw [alphabet_length]
    intro hdvd j hj heq
    have hsj : s[j]? = some s[j] := List.getElem?_eq_getElem hj
    obtain ⟨p, hp, hpos⟩ := (mem_alphabet_iff s[j]).mp (hmem _ (List.getElem?_mem hsj))
    obtain ⟨d, hd⟩ := alphabet_get_mod (p + u.length + j)
    rw [hgu j p _ hsj hpos, hgv j p _ hsj hpos, hd] at heq
    have := alphabet_get_inj _ _ d heq.symm hd
    omega

/-- Witness of C15: the prefixes "" and "а" and the trailing text "бв". -/
theorem trithemius_position_sensitivity_witness :
    ([1073, 1074] : WString) ≠ [] ∧
    (∀ c ∈ ([1073, 1074] : WString), c ∈ alphabet) ∧
    ∃ eu ev : WString,
      TrithemiusCipher.encrypt ([] ++ [1073, 1074]) = .ok eu ∧
      TrithemiusCipher.encrypt ([1072] ++ [1073, 1074]) = .ok ev ∧
      (eu.drop (eu.length - ([1073, 1074] : WString).length)
          = ev.drop (ev.length - ([1073, 1074] : WString).length) ↔
        (alphabet.length : Int) ∣
          (([] : WString).length : Int) - (([1072] : WString).length : Int)) ∧
      (¬ (alphabet.length : Int) ∣
          (([] : WString).length : Int) - (([1072] : WString).length : Int) →
        ∀ j : Nat, j < ([1073, 1074] : WString).length →
          (eu.drop (eu.length - ([1073, 1074] : WString).length))[j]?
            ≠ (ev.drop (ev.length - ([1073, 1074] : WString).length))[j]?) :=
  ⟨by decide, by simp [alphabet],
    trithemius_position_sensitivity [] [1072] [1073, 1074] (by decide) (by simp [alphabet])⟩

/-- C16. Dispatch: for every key and every text, the `Encryptor` configured by
the selection switch of `main` for the choice 1, 2, 3, 4 encrypts and decrypts
the text exactly as `CaesarCipher`, `TrithemiusCipher`, `GammaCipher(key)` and
`VigenereCipher(key)` respectively. -/
theorem encryptor_dispatch (key text : WString) :
    (∃ e : Encryptor, selectEncryptor 1 key = some e ∧
      e.encrypt text = CaesarCipher.encrypt text ∧
      e.decrypt text = CaesarCipher.decrypt text) ∧
    (∃ e : Encryptor, selectEncryptor 2 key = some e ∧
      e.encrypt text = TrithemiusCipher.encrypt text ∧
      e.decrypt text = TrithemiusCipher.decrypt text) ∧
    (∃ e : Encryptor, selectEncryptor 3 key = some e ∧
      e.encrypt text = (GammaCipher.mk key).encrypt text ∧
      e.decrypt text = (GammaCipher.mk key).decrypt text) ∧
    (∃ e : Encryptor, selectEncryptor 4 key = some e ∧
      e.encrypt text = (VigenereCipher.mk key).encrypt text ∧
      e.decrypt text = (VigenereCipher.mk key).decrypt text) :=
  ⟨⟨_, rfl, rfl, rfl⟩, ⟨_, rfl, rfl, rfl⟩, ⟨_, rfl, rfl, rfl⟩, ⟨_, rfl, rfl, rfl⟩⟩

/-- C17. Vigenere sentinel quirk: a text symbol that is not in the alphabet is
given position -1, which enters the arithmetic.  For every non-empty key and
every index `i` where `text[i]` is not in the alphabet and `key[i mod keyLength]`
is in the alphabet at position `k`, the index computed by `encrypt` is
`(-1 + k + 1) mod L = k` and the symbol output in iteration `i` is the key
symbol, not `text[i]`; it stands at index `i` of every text `encrypt` returns,
`encrypt` does return a text when the key consists of alphabet symbols, and no
text returned by `encrypt` is decrypted to `text`. -/
theorem vigenere_sentinel_quirk (key text : WString) (i k : Nat) (textChar keyChar : WChar)
    (hkey : key ≠ []) (hi : text[i]? = some textChar)
    (hki : key[i % key.length]? = some keyChar) (ht : textChar ∉ alphabet)
    (hk : alphabet[k]? = some keyChar) :
    toInt (find alphabet textChar) = -1 ∧
    VigenereCipher.resultIndex true textChar keyChar
      = ((-1 : Int) + k + 1) % alphabet.length ∧
    VigenereCipher.resultIndex true textChar keyChar = k ∧
    VigenereCipher.processChar ⟨key⟩ true i textChar = .ok keyChar ∧
    keyChar ≠ textChar ∧
    (∀ out : WString, (VigenereCipher.mk key).encrypt text = .ok out →
      out[i]? = some keyChar) ∧
    ((∀ c ∈ key, c ∈ alphabet) →
      ∃ out dec : WString, (VigenereCipher.mk key).encrypt text = .ok out ∧
        out[i]? = some keyChar ∧ (VigenereCipher.mk key).decrypt out = .ok dec ∧
        dec ≠ text) ∧
    ¬ ∃ out : WString, (VigenereCipher.mk key).encrypt text = .ok out ∧
        (VigenereCipher.mk key).decrypt out = .ok text := by
  have hk2 := alphabet_get_lt k keyChar hk
  obtain ⟨hidx, hproc⟩ := VigenereCipher.vigenere_processChar_sentinel key i k textChar
    keyChar hki ht hk
  have hne : keyChar ≠ textChar := fun h => ht (h ▸ List.getElem?_mem hk)
  have hout : ∀ out : WString, (VigenereCipher.mk key).encrypt text = .ok out →
      out[i]? = some keyChar := by
    intro out ho
    obtain ⟨d, hd, hbd⟩ := forEachIndex_get _ text out 0 ho i textChar hi
    rw [Nat.zero_add, hproc] at hbd
    cases hbd
    exact hd
  have hno : ¬ ∃ out : WString, (VigenereCipher.mk key).encrypt text = .ok out ∧
      (VigenereCipher.mk key).decrypt out = .ok text := by
    rintro ⟨out, ho, hd⟩
    obtain ⟨d, hd2, hbd⟩ := forEachIndex_get _ out text 0 hd i keyChar (hout out ho)
    rw [hi] at hd2
    cases hd2
    exact ht (VigenereCipher.vigenere_processChar_mem key false _ keyChar textChar hbd)
  refine ⟨by rw [find_of_not_mem alphabet _ ht, toInt_npos], ?_, hidx, hproc, hne, hout, ?_,
    hno⟩
  · rw [hidx, alphabet_length]
    omega
  · intro hall
    obtain ⟨out, ho⟩ := forEachIndex_total (VigenereCipher.processChar ⟨key⟩ true) text 0
      (fun j c _ => by
        obtain ⟨kc, hkc, hmem, _⟩ := charAt_key key hkey (0 + j)
        exact VigenereCipher.vigenere_processChar_encrypt_total key (0 + j) c kc hkc
          (Or.inr (hall kc hmem)))
    obtain ⟨dec, hdec⟩ := forEachIndex_total (VigenereCipher.processChar ⟨key⟩ false) out 0
      (fun j c _ => VigenereCipher.vigenere_processChar_decrypt_total key hkey (0 + j) c)
    refine ⟨out, dec, ho, hout out ho, hdec, ?_⟩
    intro heq
    exact hno ⟨out, ho, heq ▸ hdec⟩

/-- Witness of C17: the key "б" (position 1) and the text "аzа", whose symbol
"z" at index 1 is not in the alphabet; `encrypt` returns "вбв", which `decrypt`
turns into "а–а". -/
theorem vigenere_sentinel_quirk_witness :
    (VigenereCipher.mk [1073]).encrypt [1072, 122, 1072] = .ok [1074, 1073, 1074] ∧
    (VigenereCipher.mk [1073]).decrypt [1074, 1073, 1074] = .ok [1072, 8211, 1072] ∧
    ([1073] : WString) ≠ [] ∧
    ([1072, 122, 1072] : WString)[1]? = some 122 ∧
    ([1073] : WString)[1 % ([1073] : WString).length]? = some 1073 ∧
    (122 : WChar) ∉ alphabet ∧
    alphabet[1]? = some 1073 ∧
    (toInt (find alphabet 122) = -1 ∧
    VigenereCipher.resultIndex true 122 1073
      = ((-1 : Int) + (1 : Nat) + 1) % alphabet.length ∧
    VigenereCipher.resultIndex true 122 1073 = (1 : Nat) ∧
    VigenereCipher.processChar ⟨[1073]⟩ true 1 122 = .ok 1073 ∧
    (1073 : WChar) ≠ 122 ∧
    (∀ out : WString, (VigenereCipher.mk [1073]).encrypt [1072, 122, 1072] = .ok out →
      out[1]? = some 1073) ∧
    ((∀ c ∈ ([1073] : WString), c ∈ alphabet) →
      ∃ out dec : WString, (VigenereCipher.mk [1073]).encrypt [1072, 122, 1072] = .ok out ∧
        out[1]? = some 1073 ∧ (VigenereCipher.mk [1073]).decrypt out = .ok dec ∧
        dec ≠ [1072, 122, 1072]) ∧
    ¬ ∃ out : WString, (VigenereCipher.mk [1073]).encrypt [1072, 122, 1072] = .ok out ∧
        (VigenereCipher.mk [1073]).decrypt out = .ok [1072, 122, 1072]) :=
  ⟨rfl, rfl, by decide, by decide, by decide, by decide, by decide,
    vigenere_sentinel_quirk [1073] [1072, 122, 1072] 1 1 122 1073 (by decide)
      (by decide) (by decide) (by decide) (by decide)⟩

/-- C18. Vigenere index safety: for every text and every non-empty key, at
every index the index computed by `decrypt` lies in `[0, L)`, and the index
computed by `encrypt` lies in `[0, L)` if and only if the text symbol or the key
symbol `key[i mod keyLength]` is in the alphabet; when both are outside the
alphabet the `encrypt` index is -1 and the subscript of the alphabet is out of
bounds.  So `decrypt` returns a text on every text, `encrypt` returns a text if
and only if at every index the text symbol or the key symbol is in the
alphabet, and in particular on every text of alphabet symbols. -/
theorem vigenere_index_safety (key text : WString) (hkey : key ≠ []) :
    (∀ (i : Nat) (textChar keyChar : WChar), text[i]? = some textChar →
      key[i % key.length]? = some keyChar →
        (0 ≤ VigenereCipher.resultIndex false textChar keyChar ∧
          VigenereCipher.resultIndex false textChar keyChar < alphabet.length) ∧
        ((0 ≤ VigenereCipher.resultIndex true textChar keyChar ∧
            VigenereCipher.resultIndex true textChar keyChar < alphabet.length) ↔
          (textChar ∈ alphabet ∨ keyChar ∈ alphabet)) ∧
        (textChar ∉ alphabet → keyChar ∉ alphabet →
          VigenereCipher.resultIndex true textChar keyChar = -1 ∧
          charAt alphabet (toSizeT (-1)) = .error .outOfBounds ∧
          VigenereCipher.processChar ⟨key⟩ true i textChar = .error .outOfBounds)) ∧
    (∃ out : WString, (VigenereCipher.mk key).decrypt text = .ok out) ∧
    ((∃ out : WString, (VigenereCipher.mk key).encrypt text = .ok out) ↔
      ∀ (i : Nat) (textChar keyChar : WChar), text[i]? = some textChar →
        key[i % key.length]? = some keyChar → textChar ∈ alphabet ∨ keyChar ∈ alphabet) ∧
    ((∀ c ∈ text, c ∈ alphabet) →
      ∃ out : WString, (VigenereCipher.mk key).encrypt text = .ok out) := by
  have henc : (∀ (i : Nat) (textChar keyChar : WChar), text[i]? = some textChar →
      key[i % key.length]? = some keyChar → textChar ∈ alphabet ∨ keyChar ∈ alphabet) →
      ∃ out : WString, (VigenereCipher.mk key).encrypt text = .ok out := by
    intro h
    refine forEachIndex_total _ text 0 ?_
    intro j c hc
    obtain ⟨kc, hkc, _, _⟩ := charAt_key key hkey (0 + j)
    refine VigenereCipher.vigenere_processChar_encrypt_total key (0 + j) c kc hkc ?_
    rw [Nat.zero_add] at hkc
    exact h j c kc hc hkc
  refine ⟨?_, ?_, ⟨?_, henc⟩, ?_⟩
  · intro i textChar keyChar _ hki
    refine ⟨?_, ?_, ?_⟩
    · simpa [alphabet_length] using
        VigenereCipher.vigenere_resultIndex_decrypt_range textChar keyChar
    · constructor
      · intro hrange
        by_contra hnot
        rw [not_or] at hnot
        rw [VigenereCipher.vigenere_resultIndex_encrypt_neg textChar keyChar hnot.1 hnot.2]
          at hrange
        omega
      · intro hin
        simpa [alphabet_length] using
          VigenereCipher.vigenere_resultIndex_encrypt_range textChar keyChar hin
    · intro ht hk
      exact ⟨VigenereCipher.vigenere_resultIndex_encrypt_neg textChar keyChar ht hk, rfl,
        VigenereCipher.vigenere_processChar_encrypt_fault key i textChar keyChar hki ht hk⟩
  · exact forEachIndex_total _ text 0
      (fun j c _ => VigenereCipher.vigenere_processChar_decrypt_total key hkey (0 + j) c)
  · rintro ⟨out, ho⟩ i textChar keyChar hi hki
    by_contra hnot
    rw [not_or] at hnot
    obtain ⟨d, _, hbd⟩ := forEachIndex_get _ text out 0 ho i textChar hi
    rw [Nat.zero_add,
      VigenereCipher.vigenere_processChar_encrypt_fault key i textChar keyChar hki hnot.1
        hnot.2] at hbd
    cases hbd
  · intro hall
    exact henc (fun i textChar _ hi _ => Or.inl (hall textChar (List.getElem?_mem hi)))

/-- Witness of C18: the key "z", outside the alphabet, and the text "аz":
`encrypt` reaches the out-of-bounds subscript at index 1, `decrypt` returns
"а–". -/
theorem vigenere_index_safety_witness :
    (VigenereCipher.mk [122]).encrypt [1072, 122] = .error .outOfBounds ∧
    (VigenereCipher.mk [122]).decrypt [1072, 122] = .ok [1072, 8211] ∧
    ([122] : WString) ≠ [] ∧
    ((∀ (i : Nat) (textChar keyChar : WChar),
      ([1072, 122] : WString)[i]? = some textChar →
      ([122] : WString)[i % ([122] : WString).length]? = some keyChar →
        (0 ≤ VigenereCipher.resultIndex false textChar keyChar ∧
          VigenereCipher.resultIndex false textChar keyChar < alphabet.length) ∧
        ((0 ≤ VigenereCipher.resultIndex true textChar keyChar ∧
            VigenereCipher.resultIndex true textChar keyChar < alphabet.length) ↔
          (textChar ∈ alphabet ∨ keyChar ∈ alphabet)) ∧
        (textChar ∉ alphabet → keyChar ∉ alphabet →
          VigenereCipher.resultIndex true textChar keyChar = -1 ∧
          charAt alphabet (toSizeT (-1)) = .error .outOfBounds ∧
          VigenereCipher.processChar ⟨[122]⟩ true i textChar = .error .outOfBounds)) ∧
    (∃ out : WString, (VigenereCipher.mk [122]).decrypt [1072, 122] = .ok out) ∧
    ((∃ out : WString, (VigenereCipher.mk [122]).encrypt [1072, 122] = .ok out) ↔
      ∀ (i : Nat) (textChar keyChar : WChar),
        ([1072, 122] : WString)[i]? = some textChar →
        ([122] : WString)[i % ([122] : WString).length]? = some keyChar →
          textChar ∈ alphabet ∨ keyChar ∈ alphabet) ∧
    ((∀ c ∈ ([1072, 122] : WString), c ∈ alphabet) →
      ∃ out : WString, (VigenereCipher.mk [122]).encrypt [1072, 122] = .ok out)) :=
  ⟨rfl, rfl, by decide, vigenere_index_safety [122] [1072, 122] (by decide)⟩

/-- C19. Unvalidated Vigenere key: the constructor accepts every key, and for
every text of alphabet symbols and every non-empty key none of whose symbols is
in the alphabet, `encrypt` and `decrypt` return the text itself. -/
theorem vigenere_outside_key_identity (key text : WString) (hkey : key ≠ [])
    (hk : ∀ c ∈ key, c ∉ alphabet) (ht : ∀ c ∈ text, c ∈ alphabet) :
    VigenereCipher.new key = .ok ⟨key⟩ ∧
    (VigenereCipher.mk key).encrypt text = .ok text ∧
    (VigenereCipher.mk key).decrypt text = .ok text := by
  have hbody : ∀ (b : Bool) (j : Nat) (c : WChar), text[j]? = some c →
      VigenereCipher.processChar ⟨key⟩ b (0 + j) c = .ok c := by
    intro b j c hc
    obtain ⟨kc, hkc, hmem, _⟩ := charAt_key key hkey (0 + j)
    obtain ⟨t, _, htpos⟩ := (mem_alphabet_iff c).mp (ht c (List.getElem?_mem hc))
    exact VigenereCipher.vigenere_processChar_outside_key key b (0 + j) t c kc hkc htpos
      (hk kc hmem)
  exact ⟨rfl, forEachIndex_id _ text 0 (hbody true), forEachIndex_id _ text 0 (hbody false)⟩

/-- Witness of C19: the Latin key "ab1" and the text "да, нет". -/
theorem vigenere_outside_key_identity_witness :
    ([97, 98, 49] : WString) ≠ [] ∧
    (∀ c ∈ ([97, 98, 49] : WString), c ∉ alphabet) ∧
    (∀ c ∈ ([1076, 1072, 44, 32, 1085, 1077, 1090] : WString), c ∈ alphabet) ∧
    (VigenereCipher.new [97, 98, 49] = .ok ⟨[97, 98, 49]⟩ ∧
    (VigenereCipher.mk [97, 98, 49]).encrypt [1076, 1072, 44, 32, 1085, 1077, 1090]
      = .ok [1076, 1072, 44, 32, 1085, 1077, 1090] ∧
    (VigenereCipher.mk [97, 98, 49]).decrypt [1076, 1072, 44, 32, 1085, 1077, 1090]
      = .ok [1076, 1072, 44, 32, 1085, 1077, 1090]) :=
  ⟨by decide, by simp [alphabet], by simp [alphabet],
    vigenere_outside_key_identity [97, 98, 49] [1076, 1072, 44, 32, 1085, 1077, 1090]
      (by decide) (by simp [alphabet]) (by simp [alphabet])⟩

/-- C20. Alphabet closure: for every text composed solely of alphabet symbols,
and every non-empty key for Vigenere, `encrypt` and `decrypt` of
`CaesarCipher`, `TrithemiusCipher` and `VigenereCipher` return a text composed
solely of alphabet symbols. -/
theorem alphabet_closure (key text : WString) (hkey : key ≠ [])
    (ht : ∀ c ∈ text, c ∈ alphabet) :
    (∃ out : WString, CaesarCipher.encrypt text = .ok out ∧ ∀ c ∈ out, c ∈ alphabet) ∧
    (∃ out : WString, CaesarCipher.decrypt text = .ok out ∧ ∀ c ∈ out, c ∈ alphabet) ∧
    (∃ out : WString, TrithemiusCipher.encrypt text = .ok out ∧ ∀ c ∈ out, c ∈ alphabet) ∧
    (∃ out : WString, TrithemiusCipher.decrypt text = .ok out ∧ ∀ c ∈ out, c ∈ alphabet) ∧
    (∃ out : WString, (VigenereCipher.mk key).encrypt text = .ok out ∧
      ∀ c ∈ out, c ∈ alphabet) ∧
    (∃ out : WString, (VigenereCipher.mk key).decrypt text = .ok out ∧
      ∀ c ∈ out, c ∈ alphabet) := by
  have hpos : ∀ (j : Nat) (c : WChar), text[j]? = some c →
      ∃ p : Nat, alphabet[p]? = some c := by
    intro j c hc
    obtain ⟨p, _, hp⟩ := (mem_alphabet_iff c).mp (ht c (List.getElem?_mem hc))
    exact ⟨p, hp⟩
  refine ⟨forEachIndex_all _ _ text 0 ?_, forEachIndex_all _ _ text 0 ?_,
    forEachIndex_all _ _ text 0 ?_, forEachIndex_all _ _ text 0 ?_,
    forEachIndex_all _ _ text 0 ?_, forEachIndex_all _ _ text 0 ?_⟩
  · intro j c hc
    obtain ⟨p, hp⟩ := hpos j c hc
    obtain ⟨d, hd, hb⟩ := CaesarCipher.caesar_shiftChar_encrypt p c hp
    exact ⟨d, hb, List.getElem?_mem hd⟩
  · intro j c hc
    obtain ⟨p, hp⟩ := hpos j c hc
    obtain ⟨d, hd, hb⟩ := CaesarCipher.caesar_shiftChar_decrypt p c hp
    exact ⟨d, hb, List.getElem?_mem hd⟩
  · intro j c hc
    obtain ⟨p, hp⟩ := hpos j c hc
    obtain ⟨d, hd, hb⟩ := TrithemiusCipher.trithemius_shiftChar_encrypt (0 + j) p c hp
    exact ⟨d, hb, List.getElem?_mem hd⟩
  · intro j c hc
    obtain ⟨p, hp⟩ := hpos j c hc
    obtain ⟨d, hd, hb⟩ := TrithemiusCipher.trithemius_shiftChar_decrypt (0 + j) p c hp
    exact ⟨d, hb, List.getElem?_mem hd⟩
  · intro j c hc
    obtain ⟨kc, hkc, _, _⟩ := charAt_key key hkey (0 + j)
    obtain ⟨d, hd⟩ := VigenereCipher.vigenere_processChar_encrypt_total key (0 + j) c kc hkc
      (Or.inl (ht c (List.getElem?_mem hc)))
    exact ⟨d, hd, VigenereCipher.vigenere_processChar_mem key true _ c d hd⟩
  · intro j c hc
    obtain ⟨d, hd⟩ := VigenereCipher.vigenere_processChar_decrypt_total key hkey (0 + j) c
    exact ⟨d, hd, VigenereCipher.vigenere_processChar_mem key false _ c d hd⟩

/-- Witness of C20: the key "z1" and the text "я–а". -/
theorem alphabet_closure_witness :
    ([122, 49] : WString) ≠ [] ∧
    (∀ c ∈ ([1103, 8211, 1072] : WString), c ∈ alphabet) ∧
    ((∃ out : WString, CaesarCipher.encrypt [1103, 8211, 1072] = .ok out ∧
      ∀ c ∈ out, c ∈ alphabet) ∧
    (∃ out : WString, CaesarCipher.decrypt [1103, 8211, 1072] = .ok out ∧
      ∀ c ∈ out, c ∈ alphabet) ∧
    (∃ out : WString, TrithemiusCipher.encrypt [1103, 8211, 1072] = .ok out ∧
      ∀ c ∈ out, c ∈ alphabet) ∧
    (∃ out : WString, TrithemiusCipher.decrypt [1103, 8211, 1072] = .ok out ∧
      ∀ c ∈ out, c ∈ alphabet) ∧
    (∃ out : WString, (VigenereCipher.mk [122, 49]).encrypt [1103, 8211, 1072] = .ok out ∧
      ∀ c ∈ out, c ∈ alphabet) ∧
    (∃ out : WString, (VigenereCipher.mk [122, 49]).decrypt [1103, 8211, 1072] = .ok out ∧
      ∀ c ∈ out, c ∈ alphabet)) :=
  ⟨by decide, by simp [alphabet],
    alphabet_closure [122, 49] [1103, 8211, 1072] (by decide) (by simp [alphabet])⟩

end CryptoApp
